import Mathlib

/-!
# BruteForce: the GPU SHA-256 hasher (`hasherGpuSha256.go`)

A shallow embedding of the host code (`hashWithGpu`, `processWithGpu`, `DecodeInput`)
and of the OpenCL kernel program (`hash`, `sha256_crypt_kernel`,
`sha256_crypt_and_worder`) together with theorems about them.

Conventions.
* A Go `string` / `[]byte` and an OpenCL `char` buffer are lists of bytes, each byte a
  natural number below 256.
* `uint` values are natural numbers; every operation that can leave 32 bits is reduced
  modulo `2^32` explicitly.
* Lengths, buffer indices, lane indices and the kernel's `int` variables are natural
  numbers.  In the search kernel the operations on `int` values that have no defined
  value (the product `index * word_size` from `2^31` on, a division by a power that is
  zero in 32 bits) are tested lane by lane (`laneDefined`): a lane in which one occurs
  has no result (`none`), and neither has the launch that contains it.
* What the backing array of the slice returned by `hex.DecodeString` holds after the
  decoded bytes is an explicit argument of `processWithGpu` (`spare`): Go checks the
  slices `de[0:4] .. de[28:32]` against the capacity, not the length.
* The operations of the device binding (allocation, copy, launch, read-back) succeed.
* A kernel launch runs its lanes one after the other in an order that the device picks;
  the order is an explicit argument (`order`).
* A private array that the kernel declares without initialising it has arbitrary
  contents; these contents are an explicit argument (`priv lane k` is word `k` of the
  array `current_digest` of lane `lane` before the lane writes to it).  The words of
  device memory that follow the 8-word target buffer are an explicit argument too
  (`beyond`).
-/

namespace BruteForce

/-! ## 32-bit helpers of the kernel program -/

/-- Reduction of a natural number to an OpenCL `uint`. -/
def u32 (x : Nat) : Nat := x % 2 ^ 32

/-- The kernel function `rotr`. -/
def rotr (x n : Nat) : Nat :=
  if n < 32 then u32 ((x >>> n) ||| (x <<< (32 - n))) else x

/-- The kernel function `ch`; `~x` is the 32-bit complement. -/
def ch (x y z : Nat) : Nat := (x &&& y) ^^^ ((x ^^^ 0xffffffff) &&& z)

/-- The kernel function `maj`. -/
def maj (x y z : Nat) : Nat := (x &&& y) ^^^ (x &&& z) ^^^ (y &&& z)

/-- The kernel function `sigma0`. -/
def sigma0 (x : Nat) : Nat := rotr x 2 ^^^ rotr x 13 ^^^ rotr x 22

/-- The kernel function `sigma1`. -/
def sigma1 (x : Nat) : Nat := rotr x 6 ^^^ rotr x 11 ^^^ rotr x 25

/-- The kernel function `gamma0`. -/
def gamma0 (x : Nat) : Nat := rotr x 7 ^^^ rotr x 18 ^^^ (x >>> 3)

/-- The kernel function `gamma1`. -/
def gamma1 (x : Nat) : Nat := rotr x 17 ^^^ rotr x 19 ^^^ (x >>> 10)

/-- The kernel function `custom_pow`: `result` starts at 1 and is multiplied `b` times
by `a`; the product is taken in 32 bits. -/
def custom_pow (a b : Nat) : Nat :=
  (List.range b).foldl (fun result _ => u32 (result * a)) 1

/-- The kernel function `comp_arrays`: the loop over `i < size` leaves with 0 at the
first index where the arrays differ and returns 1 when there is none.  The arrays are
given as index functions. -/
def comp_arrays (a1 a2 : Nat → Nat) (size : Nat) : Nat :=
  if (List.range size).all (fun i => a1 i == a2 i) then 1 else 0

/-! ## The compression core `hash` -/

/-- The round constants `K` of the kernel function `hash`. -/
def K : List Nat := [
  0x428a2f98, 0x71374491, 0xb5c0fbcf, 0xe9b5dba5, 0x3956c25b, 0x59f111f1, 0x923f82a4, 0xab1c5ed5,
  0xd807aa98, 0x12835b01, 0x243185be, 0x550c7dc3, 0x72be5d74, 0x80deb1fe, 0x9bdc06a7, 0xc19bf174,
  0xe49b69c1, 0xefbe4786, 0x0fc19dc6, 0x240ca1cc, 0x2de92c6f, 0x4a7484aa, 0x5cb0a9dc, 0x76f988da,
  0x983e5152, 0xa831c66d, 0xb00327c8, 0xbf597fc7, 0xc6e00bf3, 0xd5a79147, 0x06ca6351, 0x14292967,
  0x27b70a85, 0x2e1b2138, 0x4d2c6dfc, 0x53380d13, 0x650a7354, 0x766a0abb, 0x81c2c92e, 0x92722c85,
  0xa2bfe8a1, 0xa81a664b, 0xc24b8b70, 0xc76c51a3, 0xd192e819, 0xd6990624, 0xf40e3585, 0x106aa070,
  0x19a4c116, 0x1e376c08, 0x2748774c, 0x34b0bcb5, 0x391c0cb3, 0x4ed8aa4a, 0x5b9cca4f, 0x682e6ff3,
  0x748f82ee, 0x78a5636f, 0x84c87814, 0x8cc70208, 0x90befffa, 0xa4506ceb, 0xbef9a3f7, 0xc67178f2]

/-- The initial digest words `H0 .. H7`. -/
def H0_7 : List Nat :=
  [0x6a09e667, 0xbb67ae85, 0x3c6ef372, 0xa54ff53a, 0x510e527f, 0x9b05688c, 0x1f83d9ab, 0x5be0cd19]

/-- The value `(uchar) plain_key[j]`. -/
def uchar (plain_key : Nat → Nat) (j : Nat) : Nat := plain_key j % 256

/-- The variable `total` of `hash`.  The source line is
`total = ulen%64>=56?2:1 + ulen/64;`, in which `+` binds tighter than `?:`. -/
def total (ulen : Nat) : Nat :=
  if ulen % 64 ≥ 56 then 2 else 1 + ulen / 64

/-- The variable `current_pad` of `hash` for the block `item` (`msg_pad = item*64`). -/
def current_pad (ulen item : Nat) : Int :=
  if ulen > item * 64 then
    (if ulen - item * 64 > 64 then 64 else ((ulen - item * 64 : Nat) : Int))
  else -1

/-- The four message bytes packed into `W[t]` by the loop `t < stop`. -/
def loadWord (plain_key : Nat → Nat) (msg_pad t : Nat) : Nat :=
  (uchar plain_key (msg_pad + t * 4) <<< 24) |||
  (uchar plain_key (msg_pad + t * 4 + 1) <<< 16) |||
  (uchar plain_key (msg_pad + t * 4 + 2) <<< 8) |||
  uchar plain_key (msg_pad + t * 4 + 3)

/-- The word `W[t]` written after the loop `t < stop`, by the value of `mmod = i % 4`:
the remaining message bytes followed by the byte `0x80`. -/
def tailWord (plain_key : Nat → Nat) (msg_pad t mmod : Nat) : Nat :=
  if mmod = 3 then
    (uchar plain_key (msg_pad + t * 4) <<< 24) |||
    (uchar plain_key (msg_pad + t * 4 + 1) <<< 16) |||
    (uchar plain_key (msg_pad + t * 4 + 2) <<< 8) ||| 0x80
  else if mmod = 2 then
    (uchar plain_key (msg_pad + t * 4) <<< 24) |||
    (uchar plain_key (msg_pad + t * 4 + 1) <<< 16) ||| 0x8000
  else if mmod = 1 then
    (uchar plain_key (msg_pad + t * 4) <<< 24) ||| 0x800000
  else 0x80000000

/-- The array `W` (80 words) of `hash` for the block `item`, as it is when the round
loop starts: cleared, then filled from the message and the padding. -/
def fillW (plain_key : Nat → Nat) (ulen item : Nat) : List Nat :=
  let W0 := List.replicate 80 0
  let msg_pad := item * 64
  let cp := current_pad ulen item
  if cp > 0 then
    let i := cp.toNat
    let stop := i / 4
    let W1 := (List.range stop).foldl (fun W t => W.set t (loadWord plain_key msg_pad t)) W0
    let W2 := W1.set stop (tailWord plain_key msg_pad stop (i % 4))
    if cp < 56 then W2.set 15 (u32 (ulen * 8)) else W2
  else if cp < 0 then
    let W1 := if ulen % 64 = 0 then W0.set 0 0x80000000 else W0
    W1.set 15 (u32 (ulen * 8))
  else W0

/-- The working variables `A .. H` of `hash` together with the array `W`. -/
structure Round where
  W : List Nat
  A : Nat
  B : Nat
  C : Nat
  D : Nat
  E : Nat
  F : Nat
  G : Nat
  H : Nat

/-- One pass of the loop `for (t = 0; t < 64; t++)` of `hash`. -/
def roundStep (r : Round) (t : Nat) : Round :=
  let W := if t ≥ 16 then
      r.W.set t (u32 (gamma1 (r.W.getD (t - 2) 0) + r.W.getD (t - 7) 0
        + gamma0 (r.W.getD (t - 15) 0) + r.W.getD (t - 16) 0))
    else r.W
  let T1 := u32 (r.H + sigma1 r.E + ch r.E r.F r.G + K.getD t 0 + W.getD t 0)
  let T2 := u32 (sigma0 r.A + maj r.A r.B r.C)
  ⟨W, u32 (T1 + T2), r.A, r.B, r.C, u32 (r.D + T1), r.E, r.F, r.G⟩

/-- One pass of the loop `for (item = 0; item < total; item++)` of `hash`: the digest
words after the block `item`, from the digest words before it. -/
def hashBlock (plain_key : Nat → Nat) (ulen : Nat) (digest : List Nat) (item : Nat) : List Nat :=
  let r0 : Round := ⟨fillW plain_key ulen item,
    digest.getD 0 0, digest.getD 1 0, digest.getD 2 0, digest.getD 3 0,
    digest.getD 4 0, digest.getD 5 0, digest.getD 6 0, digest.getD 7 0⟩
  let r := (List.range 64).foldl roundStep r0
  [u32 (digest.getD 0 0 + r.A), u32 (digest.getD 1 0 + r.B), u32 (digest.getD 2 0 + r.C),
   u32 (digest.getD 3 0 + r.D), u32 (digest.getD 4 0 + r.E), u32 (digest.getD 5 0 + r.F),
   u32 (digest.getD 6 0 + r.G), u32 (digest.getD 7 0 + r.H)]

/-- The kernel function `hash(plain_key, digest, ulen)`: the eight words it leaves in
`digest[0..7]`.  `plain_key` is the pointer it is given, as an index function. -/
def hash (plain_key : Nat → Nat) (ulen : Nat) : List Nat :=
  (List.range (total ulen)).foldl (hashBlock plain_key ulen) H0_7

/-! ## Go library functions used by the host code -/

/-- Go's `binary.ByteOrder`, with the two values the hasher uses. -/
inductive ByteOrder where
  | BigEndian
  | LittleEndian
  deriving DecidableEq, Repr

/-- Go's `ByteOrder.Uint32(b)` on a slice of four bytes. -/
def ByteOrder.Uint32 (e : ByteOrder) (b : List Nat) : Nat :=
  match e with
  | .BigEndian =>
    b.getD 3 0 ||| (b.getD 2 0 <<< 8) ||| (b.getD 1 0 <<< 16) ||| (b.getD 0 0 <<< 24)
  | .LittleEndian =>
    b.getD 0 0 ||| (b.getD 1 0 <<< 8) ||| (b.getD 2 0 <<< 16) ||| (b.getD 3 0 <<< 24)

/-- Go's `ByteOrder.PutUint32(b, v)`: the four bytes it stores (`byte(x)` is `x % 256`). -/
def ByteOrder.PutUint32 (e : ByteOrder) (v : Nat) : List Nat :=
  match e with
  | .BigEndian => [(v >>> 24) % 256, (v >>> 16) % 256, (v >>> 8) % 256, v % 256]
  | .LittleEndian => [v % 256, (v >>> 8) % 256, (v >>> 16) % 256, (v >>> 24) % 256]

/-- The table `hextable = "0123456789abcdef"` of Go's `encoding/hex`, as byte values. -/
def hextable : List Nat :=
  [48, 49, 50, 51, 52, 53, 54, 55, 56, 57, 97, 98, 99, 100, 101, 102]

/-- The same digits in upper case, `"0123456789ABCDEF"`. -/
def hextableUpper : List Nat :=
  [48, 49, 50, 51, 52, 53, 54, 55, 56, 57, 65, 66, 67, 68, 69, 70]

/-- Go's `hex.EncodeToString`: every byte `v` gives `hextable[v>>4]`, `hextable[v&0x0f]`. -/
def EncodeToString (src : List Nat) : List Nat :=
  src.flatMap (fun v => [hextable.getD (v >>> 4) 0, hextable.getD (v &&& 0x0f) 0])

/-- The upper-case hex encoding of a byte sequence. -/
def EncodeToStringUpper (src : List Nat) : List Nat :=
  src.flatMap (fun v => [hextableUpper.getD (v >>> 4) 0, hextableUpper.getD (v &&& 0x0f) 0])

/-- The value of one hex character in Go's `encoding/hex` (`0-9`, `a-f`, `A-F`), or
`none` for any other byte. -/
def fromHexChar (c : Nat) : Option Nat :=
  if 48 ≤ c ∧ c ≤ 57 then some (c - 48)
  else if 97 ≤ c ∧ c ≤ 102 then some (c - 97 + 10)
  else if 65 ≤ c ∧ c ≤ 70 then some (c - 65 + 10)
  else none

/-- Go's `hex.DecodeString` ("If the input is malformed, DecodeString returns the bytes
decoded before the error"): the characters are read two at a time; a pair of hex digits
gives one byte, the first character that is no hex digit, or a last character without a
partner, ends the decode with an error.  The result is the bytes decoded before the
error, and whether there was an error. -/
def DecodeString : List Nat → List Nat × Bool
  | p :: q :: rest =>
    match fromHexChar p, fromHexChar q with
    | some a, some b => (((a <<< 4) ||| b) :: (DecodeString rest).1, (DecodeString rest).2)
    | _, _ => ([], true)
  | [_] => ([], true)
  | [] => ([], false)

/-- Modelled from the spec: `maths.PowInt` (package `bruteforce/maths`, not among the
sources), which the spec uses as `charsetSize^wildcardCount`: integer exponentiation. -/
def PowInt (a b : Nat) : Nat := a ^ b

/-! ## The host code of the hasher -/

/-- The Go struct `hasherGpuSha256`, reduced to the field the results depend on. -/
structure hasherGpuSha256 where
  endianness : ByteOrder

/-- The method `DecodeInput`: `hex.DecodeString` with its error dropped. -/
def DecodeInput (data : List Nat) : List Nat := (DecodeString data).1

/-- The addresses `sizeInput[1..]` that the first loop of `hashWithGpu` computes:
`address = uint32(len(s)) + previous`, in 32 bits. -/
def addresses (previous : Nat) : List (List Nat) → List Nat
  | [] => []
  | s :: rest => u32 (u32 s.length + previous) :: addresses (u32 (u32 s.length + previous)) rest

/-- The array `sizeInput` of `hashWithGpu`. -/
def sizeInput (datas : List (List Nat)) : List Nat := 0 :: addresses 0 datas

/-- The array `textInput` of `hashWithGpu`: the strings copied one after the other. -/
def textInput (datas : List (List Nat)) : List Nat := datas.flatten

/-- One lane of the kernel `sha256_crypt_kernel`: the buffer `digestMulti` after the lane
`index` has run.  `priv index k` is the content of `current_digest[k]` before `hash`
writes the first eight words; the loop `i < 32` copies all 32 words to
`digestMulti[index*8 + i]`. -/
def sha256_crypt_kernel (priv : Nat → Nat → Nat) (data_info plain_keyMulti : List Nat)
    (digestMulti : List Nat) (index : Nat) : List Nat :=
  let plain_key := fun j => plain_keyMulti.getD (data_info.getD index 0 + j) 0
  let ulen := u32 (data_info.getD (index + 1) 0 + 2 ^ 32 - data_info.getD index 0)
  let h := hash plain_key ulen
  let current_digest := fun k => if k < 8 then h.getD k 0 else priv index k
  (List.range 32).foldl (fun d i => d.set (index * 8 + i) (current_digest i)) digestMulti

/-- The function `hashWithGpu`.  `order` is the order in which the device runs the
`len(datas)` lanes of the launch. -/
def hashWithGpu (order : List Nat) (priv : Nat → Nat → Nat) (endianness : ByteOrder)
    (datas : List (List Nat)) : List (List Nat) :=
  let output := List.replicate (32 * datas.length) 0
  let newData := order.foldl (sha256_crypt_kernel priv (sizeInput datas) (textInput datas)) output
  (List.range datas.length).map (fun i =>
    endianness.PutUint32 (newData.getD (i * 8) 0) ++
    endianness.PutUint32 (newData.getD (i * 8 + 1) 0) ++
    endianness.PutUint32 (newData.getD (i * 8 + 2) 0) ++
    endianness.PutUint32 (newData.getD (i * 8 + 3) 0) ++
    endianness.PutUint32 (newData.getD (i * 8 + 4) 0) ++
    endianness.PutUint32 (newData.getD (i * 8 + 5) 0) ++
    endianness.PutUint32 (newData.getD (i * 8 + 6) 0) ++
    endianness.PutUint32 (newData.getD (i * 8 + 7) 0))

/-- The method `Hash`. -/
def Hash (h : hasherGpuSha256) (order : List Nat) (priv : Nat → Nat → Nat)
    (datas : List (List Nat)) : List (List Nat) :=
  hashWithGpu order priv h.endianness datas

/-! ## The search kernel -/

/-- The read-only arguments of the kernel `sha256_crypt_and_worder`. -/
structure SearchArgs where
  salt_before : List Nat
  size_salt_before : Nat
  salt_after : List Nat
  size_salt_after : Nat
  number_of_wildcards : Nat
  char_set : List Nat
  size_char_set : Nat
  digest_expected : List Nat

/-- The two buffers the kernel `sha256_crypt_and_worder` writes. -/
structure SearchMem where
  buffer : List Nat
  matching_wild_card : List Nat

/-- The variable `word_size` of the search kernel. -/
def SearchArgs.word_size (a : SearchArgs) : Nat :=
  a.size_salt_before + a.size_salt_after + a.number_of_wildcards

/-- The index `current` into `char_set` that the search kernel computes at the buffer
position `i` of the wildcard span: `pos = number_of_wildcards - (i - size_salt_before) - 1`,
`div = index / custom_pow(base, pos)`, `current = div % base`.  This is the value of the
kernel's expression where the expression has one: the divisor `custom_pow(base, pos)` is
not zero and `base` is a positive `int`.  Where the divisor is zero the kernel's division
has no defined value; the lane `sha256_crypt_and_worder` tests this (`laneDefined`)
before it uses `currentDigit`. -/
def currentDigit (a : SearchArgs) (index i : Nat) : Nat :=
  let pos := a.number_of_wildcards - (i - a.size_salt_before) - 1
  let base := a.size_char_set
  let div := index / custom_pow base pos
  div % base

/-- The byte the materialisation loop of the search kernel stores in `my_buffer[i]`. -/
def candidateByte (a : SearchArgs) (index i : Nat) : Nat :=
  if i < a.size_salt_before then a.salt_before.getD i 0
  else if i < a.size_salt_before + a.number_of_wildcards then
    a.char_set.getD (currentDigit a index i) 0
  else a.salt_after.getD (i - a.size_salt_before - a.number_of_wildcards) 0

/-- The candidate buffer after the materialisation loop of lane `index`, which writes
through `my_buffer = &buffer[index * word_size]`.  The kernel computes `index * word_size`
with 32-bit `int` operands; the offset written here is the kernel's where that product
is below `2^31`, which the lane `sha256_crypt_and_worder` tests (`laneDefined`) before
it uses `materialise`. -/
def materialise (a : SearchArgs) (index : Nat) (buffer : List Nat) : List Nat :=
  (List.range a.word_size).foldl
    (fun buf i => buf.set (index * a.word_size + i) (candidateByte a index i)) buffer

/-- The array `current_digest` of lane `index` of the search kernel after the call of
`hash` on `my_buffer = &buffer[index * word_size]`: eight digest words, the other 24
words as they were (`priv`).  As in `materialise`, the offset is the kernel's where
`index * word_size` is below `2^31`. -/
def searchDigest (priv : Nat → Nat → Nat) (a : SearchArgs) (index : Nat) (buffer : List Nat)
    (k : Nat) : Nat :=
  if k < 8 then
    (hash (fun j => buffer.getD (index * a.word_size + j) 0) a.word_size).getD k 0
  else priv index k

/-- The value read at `digest_expected[k]`: a word of the 8-word target buffer, or for
`k ≥ 8` the word of device memory that follows it (`beyond`). -/
def expectedWord (beyond : List Nat) (a : SearchArgs) (k : Nat) : Nat :=
  (a.digest_expected ++ beyond).getD k 0

/-- The integer operations of lane `index` of the kernel `sha256_crypt_and_worder` all
have a defined value.  The kernel holds `index`, `word_size` and `base` in variables of
type `int` (32 bits) and computes `index * word_size` in `int`: the three values and the
product have to be below `2^31`.  At every wildcard position (`pos` runs over
`0 .. number_of_wildcards - 1`) it divides by `custom_pow(base, pos)` and takes the
remainder by `base`: both have to be different from zero.  `custom_pow` multiplies in 32
bits, so that `custom_pow(base, pos)` is zero when `base^pos` is a multiple of `2^32`. -/
def laneDefined (a : SearchArgs) (index : Nat) : Prop :=
  index < 2 ^ 31 ∧ a.word_size < 2 ^ 31 ∧ index * a.word_size < 2 ^ 31
  ∧ ∀ pos, pos < a.number_of_wildcards →
      0 < a.size_char_set ∧ a.size_char_set < 2 ^ 31 ∧ custom_pow a.size_char_set pos ≠ 0

instance (a : SearchArgs) (index : Nat) : Decidable (laneDefined a index) := by
  unfold laneDefined
  infer_instance

/-- The body of the kernel `sha256_crypt_and_worder` in lane `index`: the
materialisation loop, the call of `hash`, the call `comp_arrays(current_digest,
digest_expected, 32)` and, when it answers 1, the copy of the wildcard bytes to
`matching_wild_card`. -/
def runLane (priv : Nat → Nat → Nat) (beyond : List Nat) (a : SearchArgs)
    (m : SearchMem) (index : Nat) : SearchMem :=
  let buffer := materialise a index m.buffer
  if comp_arrays (searchDigest priv a index buffer) (expectedWord beyond a) 32 = 1 then
    ⟨buffer, (List.range a.number_of_wildcards).foldl
      (fun mw j => mw.set j (buffer.getD (index * a.word_size + a.size_salt_before + j) 0))
      m.matching_wild_card⟩
  else ⟨buffer, m.matching_wild_card⟩

/-- One lane of the kernel `sha256_crypt_and_worder`: the two buffers after the lane has
run, or `none` when an integer operation of the lane has no defined value (an `int`
overflow in `index * word_size`, a division by zero in `index / custom_pow(base, pos)`):
such a lane has no defined result, and a launch that contains it has none either. -/
def sha256_crypt_and_worder (priv : Nat → Nat → Nat) (beyond : List Nat) (a : SearchArgs)
    (m : SearchMem) (index : Nat) : Option SearchMem :=
  if laneDefined a index then some (runLane priv beyond a m index) else none

/-- A launch of the kernel `sha256_crypt_and_worder`: the lanes of `order` run one after
the other on the two buffers; the launch has no defined result (`none`) when one of its
lanes has none. -/
def runLanes (priv : Nat → Nat → Nat) (beyond : List Nat) (a : SearchArgs) :
    List Nat → SearchMem → Option SearchMem
  | [], m => some m
  | index :: rest, m =>
    match sha256_crypt_and_worder priv beyond a m index with
    | some m1 => runLanes priv beyond a rest m1
    | none => none

/-- The arguments `processWithGpu` passes to the kernel.  `de` is the array the slices
`de[0:4] .. de[28:32]` read: the decoded target, followed by what the backing array of
that slice holds after it. -/
def searchArgs (endianness : ByteOrder) (charSet : List (List Nat))
    (saltBefore saltAfter : List Nat) (numberOfWildCards : Nat) (de : List Nat) : SearchArgs :=
  ⟨saltBefore ++ [88], saltBefore.length, saltAfter ++ [88], saltAfter.length,
   numberOfWildCards, charSet.flatten, charSet.flatten.length,
   (List.range 8).map (fun k => endianness.Uint32 ((de.drop (4 * k)).take 4))⟩

/-- The match buffer `bMatchingWildcard` as the host reads it back after the launch of
`PowInt(len(charSet), numberOfWildCards)` lanes, run in the order `order`; `none` when
the launch has no defined result. -/
def matchBuffer (order : List Nat) (priv : Nat → Nat → Nat) (beyond : List Nat)
    (endianness : ByteOrder) (charSet : List (List Nat)) (saltBefore saltAfter : List Nat)
    (numberOfWildCards : Nat) (de : List Nat) : Option (List Nat) :=
  let numberOfWordToTest := PowInt charSet.length numberOfWildCards
  let wordSize := saltBefore.length + saltAfter.length + numberOfWildCards
  let m0 : SearchMem :=
    ⟨List.replicate (numberOfWordToTest * wordSize) 0, List.replicate numberOfWildCards 0⟩
  (runLanes priv beyond
    (searchArgs endianness charSet saltBefore saltAfter numberOfWildCards de) order m0).map
    SearchMem.matching_wild_card

/-- The last loop of `processWithGpu`: the whole buffer when one of its first
`numberOfWildCards` bytes is not zero, the empty string otherwise. -/
def readResult (numberOfWildCards : Nat) (result : List Nat) : List Nat :=
  if (List.range numberOfWildCards).any (fun i => result.getD i 0 != 0) then result else []

/-- The function `processWithGpu`.  `hex.DecodeString` returns a slice `de` of the
decoded bytes; `spare` is what the backing array of that slice holds after them, so that
the capacity of `de` is `len(de) + len(spare)`.  The slice expressions
`de[0:4] .. de[28:32]` are checked against the capacity: with a capacity of 32 or more
they read the first 32 bytes of `de ++ spare` (for a target of 64 hex characters with a
malformed pair the call goes on with bytes that are no decode), with a smaller capacity
the call panics.  `none` stands for a call that does not return a string: that panic, or
a launch without defined result. -/
def processWithGpu (order : List Nat) (priv : Nat → Nat → Nat) (beyond spare : List Nat)
    (endianness : ByteOrder) (charSet : List (List Nat)) (saltBefore saltAfter : List Nat)
    (numberOfWildCards : Nat) (expectedDigest : List Nat) : Option (List Nat) :=
  let de := (DecodeString expectedDigest).1
  if de.length + spare.length < 32 then none
  else (matchBuffer order priv beyond endianness charSet saltBefore saltAfter
    numberOfWildCards (de ++ spare)).map (readResult numberOfWildCards)

/-- The method `ProcessWithWildcard`. -/
def ProcessWithWildcard (h : hasherGpuSha256) (order : List Nat) (priv : Nat → Nat → Nat)
    (beyond spare : List Nat) (charSet : List (List Nat)) (saltBefore saltAfter : List Nat)
    (numberOfWildCards : Nat) (expectedDigest : List Nat) : Option (List Nat) :=
  processWithGpu order priv beyond spare h.endianness charSet saltBefore saltAfter
    numberOfWildCards expectedDigest

/-! ## SHA-256 as the standard defines it (FIPS 180-4)

This second definition follows the words of the specification ("standard bit-padding,
round constants, message-schedule expansion and the 64-round compression update"); it is
what `hash` is compared with. -/

namespace Sha256Spec

/-- Rotation of a 32-bit word to the right. -/
def rotr32 (x n : Nat) : Nat := ((x >>> n) ||| (x <<< (32 - n))) % 2 ^ 32

/-- The choice function. -/
def Ch (x y z : Nat) : Nat := (x &&& y) ^^^ ((2 ^ 32 - 1 - x) &&& z)

/-- The majority function. -/
def Maj (x y z : Nat) : Nat := (x &&& y) ^^^ (x &&& z) ^^^ (y &&& z)

/-- The first mixing function of the compression update. -/
def bigSigma0 (x : Nat) : Nat := rotr32 x 2 ^^^ rotr32 x 13 ^^^ rotr32 x 22

/-- The second mixing function of the compression update. -/
def bigSigma1 (x : Nat) : Nat := rotr32 x 6 ^^^ rotr32 x 11 ^^^ rotr32 x 25

/-- The first mixing function of the message schedule. -/
def smallSigma0 (x : Nat) : Nat := rotr32 x 7 ^^^ rotr32 x 18 ^^^ (x >>> 3)

/-- The second mixing function of the message schedule. -/
def smallSigma1 (x : Nat) : Nat := rotr32 x 17 ^^^ rotr32 x 19 ^^^ (x >>> 10)

/-- The big-endian bytes of a number, `n` of them. -/
def bigEndianBytes : Nat → Nat → List Nat
  | 0, _ => []
  | n + 1, x => (x >>> (8 * n)) % 256 :: bigEndianBytes n x

/-- The padded message: the message, the byte `0x80`, the least number of zero bytes
that makes the length 56 modulo 64, and the bit length as 64 bits, big-endian. -/
def pad (msg : List Nat) : List Nat :=
  msg ++ [0x80] ++ List.replicate ((119 - msg.length % 64) % 64) 0
    ++ bigEndianBytes 8 (8 * msg.length)

/-- The big-endian word made of four bytes. -/
def wordOfBytes (b : List Nat) : Nat :=
  b.foldl (fun acc x => acc * 256 + x) 0

/-- The sixteen words of the 64-byte block number `i` of a padded message. -/
def blockWords (padded : List Nat) (i : Nat) : List Nat :=
  (List.range 16).map (fun t => wordOfBytes ((padded.drop (64 * i + 4 * t)).take 4))

/-- The message schedule: the sixteen words of the block, extended to 64 words. -/
def schedule (block : List Nat) : List Nat :=
  (List.range 48).foldl (fun W _ =>
    W ++ [(smallSigma1 (W.getD (W.length - 2) 0) + W.getD (W.length - 7) 0
      + smallSigma0 (W.getD (W.length - 15) 0) + W.getD (W.length - 16) 0) % 2 ^ 32]) block

/-- One round of the compression update on the eight working variables. -/
def round (v : List Nat) (kw : Nat × Nat) : List Nat :=
  match v with
  | [a, b, c, d, e, f, g, h] =>
    let T1 := (h + bigSigma1 e + Ch e f g + kw.1 + kw.2) % 2 ^ 32
    let T2 := (bigSigma0 a + Maj a b c) % 2 ^ 32
    [(T1 + T2) % 2 ^ 32, a, b, c, (d + T1) % 2 ^ 32, e, f, g]
  | _ => v

/-- The compression of one block into the hash value. -/
def compress (H : List Nat) (block : List Nat) : List Nat :=
  List.zipWith (fun x y => (x + y) % 2 ^ 32) H ((K.zip (schedule block)).foldl round H)

/-- The eight words of the SHA-256 digest of a message. -/
def sha256Words (msg : List Nat) : List Nat :=
  (List.range ((pad msg).length / 64)).foldl
    (fun H i => compress H (blockWords (pad msg) i)) H0_7

/-- The SHA-256 digest of a message: 32 bytes. -/
def sha256 (msg : List Nat) : List Nat :=
  (sha256Words msg).flatMap (bigEndianBytes 4)

end Sha256Spec

/-- The eight words `hash` writes when it is given a pointer to the bytes of `msg` and
their number. -/
def hashWords (msg : List Nat) : List Nat :=
  hash (fun j => msg.getD j 0) msg.length

/-- The digest bytes of the compression core for a message: the eight words `hash`
writes, serialised big-endian. -/
def coreDigest (msg : List Nat) : List Nat :=
  (hashWords msg).flatMap ByteOrder.BigEndian.PutUint32

/-- The candidate string that lane `index` of the search kernel materialises. -/
def candidate (a : SearchArgs) (index : Nat) : List Nat :=
  (List.range a.word_size).map (candidateByte a index)

/-- A well-formed hex text: an even number of characters, all of them hex digits. -/
def isHexText (s : List Nat) : Prop :=
  s.length % 2 = 0 ∧ ∀ c ∈ s, (fromHexChar c).isSome = true

instance (s : List Nat) : Decidable (isHexText s) := by
  unfold isHexText
  infer_instance

/-- The hex text of the digest that `Hash` returns for the one string "e". -/
def digestOfE : List Nat :=
  EncodeToString ((Hash ⟨.BigEndian⟩ [0] (fun _ _ => 0) [[101]]).getD 0 [])

/-- The wildcard substring `w_i` as the specification gives it: at the wildcard position
`p` (0 the most significant digit) the charset byte number
`(i / charsetSize^(wildcardCount-p-1)) mod charsetSize`. -/
def wildcardOf (charSet : List (List Nat)) (wildcardCount i : Nat) : List Nat :=
  (List.range wildcardCount).map (fun p => charSet.flatten.getD
    (i / charSet.flatten.length ^ (wildcardCount - p - 1) % charSet.flatten.length) 0)

/-- The candidate number `i` of the enumerated space as the specification gives it, over
the characters of the charset (the strings `charSet[0]`, `charSet[1]`, ...): the salt
before, at every wildcard position `p` (0 the most significant digit) the character
number `(i / len(charSet)^(wildcardCount-p-1)) mod len(charSet)`, and the salt after. -/
def charsetCandidate (charSet : List (List Nat)) (saltBefore saltAfter : List Nat)
    (wildcardCount i : Nat) : List Nat :=
  saltBefore
    ++ ((List.range wildcardCount).map (fun p => charSet.getD
        (i / charSet.length ^ (wildcardCount - p - 1) % charSet.length) [])).flatten
    ++ saltAfter

/-! ## Concrete requests used in the examples -/

/-- The kernel arguments of a launch with the two-letter charset "ef", no salts and
three wildcards. -/
def argsTwoLettersThreeWildcards : SearchArgs :=
  searchArgs .BigEndian [[101], [102]] [] [] 3 (List.replicate 32 0)

/-- The hex text of the digest that `Hash` returns for the one string "te". -/
def digestOfTE : List Nat :=
  EncodeToString ((Hash ⟨.BigEndian⟩ [0] (fun _ _ => 0) [[116, 101]]).getD 0 [])

/-- The hex text of the digest that `Hash` returns for the one string "f". -/
def digestOfF : List Nat :=
  EncodeToString ((Hash ⟨.BigEndian⟩ [0] (fun _ _ => 0) [[102]]).getD 0 [])

/-- The hex text of the digest that `Hash` returns for the one string of one zero
byte. -/
def digestOfNul : List Nat :=
  EncodeToString ((Hash ⟨.BigEndian⟩ [0] (fun _ _ => 0) [[0]]).getD 0 [])

/-! ## Construction, registry and buffers -/

/-- The number of lanes `processWithGpu` launches: its variable `numberOfWordToTest`,
`maths.PowInt(len(charSet), numberOfWildCards)`. -/
def numberOfWordToTest (charSet : List (List Nat)) (numberOfWildCards : Nat) : Nat :=
  PowInt charSet.length numberOfWildCards

/-- The body of the last loop of `hashWithGpu`: the digest `digests[i]` assembled from
the words `newData[i*8 .. i*8+7]` read back from the device. -/
def digestOfWords (endianness : ByteOrder) (newData : List Nat) (i : Nat) : List Nat :=
  endianness.PutUint32 (newData.getD (i * 8) 0) ++
  endianness.PutUint32 (newData.getD (i * 8 + 1) 0) ++
  endianness.PutUint32 (newData.getD (i * 8 + 2) 0) ++
  endianness.PutUint32 (newData.getD (i * 8 + 3) 0) ++
  endianness.PutUint32 (newData.getD (i * 8 + 4) 0) ++
  endianness.PutUint32 (newData.getD (i * 8 + 5) 0) ++
  endianness.PutUint32 (newData.getD (i * 8 + 6) 0) ++
  endianness.PutUint32 (newData.getD (i * 8 + 7) 0)

/-- The literal the endianness probe of `NewHasherGpuSha256` hashes: "test". -/
def probeLiteral : List Nat := [116, 101, 115, 116]

/-- The constant `NewHasherGpuSha256` compares the hex text of the probe result with:
"9f86d081884c7d659a2feaa0c55ad015a3bf4f1b2b0b822cd15d6c15b0f00a08", as byte values. -/
def probeConstant : List Nat :=
  [57, 102, 56, 54, 100, 48, 56, 49, 56, 56, 52, 99, 55, 100, 54, 53,
   57, 97, 50, 102, 101, 97, 97, 48, 99, 53, 53, 97, 100, 48, 49, 53,
   97, 51, 98, 102, 52, 102, 49, 98, 50, 98, 48, 98, 56, 50, 50, 99,
   100, 49, 53, 100, 54, 99, 49, 53, 98, 48, 102, 48, 48, 97, 48, 56]

/-- The choice of `NewHasherGpuSha256` between the two byte orders, from the result
`bigEndianResult` of the probe: big-endian when its hex text is the constant,
little-endian otherwise. -/
def probeEndianness (bigEndianResult : List Nat) : ByteOrder :=
  if EncodeToString bigEndianResult = probeConstant then .BigEndian else .LittleEndian

/-- A GPU as `blackcl.GetDevices` hands it out, reduced to what a launch on it depends
on in this embedding: the contents of the uninitialised private words of its lanes. -/
structure Device where
  priv : Nat → Nat → Nat

/-- The function `NewHasherGpuSha256`.  `discovery` is what
`blackcl.GetDevices(blackcl.DeviceTypeGPU)` returns: an error or the list of GPUs.
The loop over the devices returns in its first pass; without a device, and on an error,
the function returns `nil` (`none`).  The probe is a launch of one lane. -/
def NewHasherGpuSha256 (discovery : Except String (List Device)) : Option hasherGpuSha256 :=
  match discovery with
  | .ok (device :: _) =>
    some ⟨probeEndianness
      ((hashWithGpu [0] device.priv .BigEndian [probeLiteral]).getD 0 [])⟩
  | .ok [] => none
  | .error _ => none

/-- The function `BuildGpuHasherMap`: the map it returns, as the list of its entries, and
its error (always `nil`).  The one entry is the factory that calls `NewHasherGpuSha256`;
`discovery` is what the device discovery returns when the factory is called. -/
def BuildGpuHasherMap (discovery : Except String (List Device)) :
    List (String × (Unit → Option hasherGpuSha256)) × Option String :=
  ([("sha256", fun _ => NewHasherGpuSha256 discovery)], none)

/-- No GPU is found: the discovery fails or returns an empty list. -/
def noGpuFound (discovery : Except String (List Device)) : Prop :=
  match discovery with
  | .ok (_ :: _) => False
  | _ => True

/-- The buffers of the device that are allocated and not released, by number, and the
number the next allocated buffer gets. -/
structure DeviceBuffers where
  live : List Nat
  next : Nat
  deriving DecidableEq, Repr

/-- The step of a call of `hashWithGpu` or `processWithGpu` that fails, if one does:
the allocation of the `k`-th buffer the call builds (`NewBytes`, `NewUint32`), the copy
of the host data into it (`Copy`), the kernel launch (`Run`) or the read-back (`Data`). -/
inductive Failure where
  | noFailure
  | alloc (k : Nat)
  | copy (k : Nat)
  | run
  | data
  deriving DecidableEq, Repr

/-- How a call leaves: by `return` or by `panic`. -/
inductive Exit where
  | returned
  | panicked
  deriving DecidableEq, Repr

/-- The calls of `buildByteBuffer` / `buildUintBuffer` of one call, the `k`-th and the
`remaining - 1` after it, each followed by its `defer ....Release()`.  A build allocates
(the new buffer is live), then copies; on a failed allocation it panics with nothing
allocated, on a failed copy it panics with the new buffer allocated and no `defer`
registered for it.  The result is the buffers of the device, the buffers whose release
is deferred (last first), and whether a build panicked. -/
def buildBuffers (f : Failure) : Nat → Nat → DeviceBuffers → List Nat →
    DeviceBuffers × List Nat × Exit
  | _, 0, s, deferred => (s, deferred, .returned)
  | k, remaining + 1, s, deferred =>
    if f = .alloc k then (s, deferred, .panicked)
    else if f = .copy k then (⟨s.next :: s.live, s.next + 1⟩, deferred, .panicked)
    else buildBuffers f (k + 1) remaining ⟨s.next :: s.live, s.next + 1⟩ (s.next :: deferred)

/-- The deferred calls of `Release`, run when the call leaves (by `return` or by
`panic`): every buffer whose release was deferred stops being live. -/
def runDeferred (deferred : List Nat) (s : DeviceBuffers) : DeviceBuffers :=
  ⟨s.live.filter (fun b => !deferred.contains b), s.next⟩

/-- The buffers of the device after a call that builds `n` buffers, launches the kernel
and reads the result back, and how the call left. -/
def gpuCall (n : Nat) (f : Failure) (s : DeviceBuffers) : DeviceBuffers × Exit :=
  match buildBuffers f 0 n s [] with
  | (s1, deferred, .panicked) => (runDeferred deferred s1, .panicked)
  | (s1, deferred, .returned) =>
    if f = .run then (runDeferred deferred s1, .panicked)
    else if f = .data then (runDeferred deferred s1, .panicked)
    else (runDeferred deferred s1, .returned)

/-- The buffers of a call of `hashWithGpu`: `infos`, `key`, `output`. -/
def hashWithGpuBuffers (f : Failure) (s : DeviceBuffers) : DeviceBuffers × Exit :=
  gpuCall 3 f s

/-- The buffers of a call of `processWithGpu`: `digestExpected`, `bBuffer`,
`bSaltBefore`, `bSaltBeforeSize`, `bSaltAfter`, `bSaltAfterSize`, `bNumberOfWildcards`,
`bMatchingWildcard`, `bCharSet`, `bCharSetSize`. -/
def processWithGpuBuffers (f : Failure) (s : DeviceBuffers) : DeviceBuffers × Exit :=
  gpuCall 10 f s

/-- The kernel arguments of the search of the test: charset "e", "f", no salts, one
wildcard, target the digest of "e". -/
def argsOfTestSearch : SearchArgs :=
  searchArgs .BigEndian [[101], [102]] [] [] 1 (DecodeInput digestOfE)

/-- The charset "d", "e", "f". -/
def charSetDEF : List (List Nat) := [[100], [101], [102]]

/-- The salt "t". -/
def saltBeforeT : List Nat := [116]

/-- The salt "uv". -/
def saltAfterUV : List Nat := [117, 118]

/-- The charset of the one string "0123456789abcdef" (16 bytes). -/
def charSetOneString16 : List (List Nat) :=
  [[48, 49, 50, 51, 52, 53, 54, 55, 56, 57, 97, 98, 99, 100, 101, 102]]

/-- The charset of the 62 characters "0".."9", "A".."Z", "a".."z", one byte each. -/
def charSetAlphanumeric : List (List Nat) :=
  ((List.range 10).map (fun k => [48 + k])) ++ ((List.range 26).map (fun k => [65 + k]))
    ++ ((List.range 26).map (fun k => [97 + k]))

/-- A target of 64 characters whose last pair "0g" is no hex pair: 62 zeros, then "0g".
`hex.DecodeString` decodes 31 bytes of it. -/
def targetWithBadLastPair : List Nat := List.replicate 62 48 ++ [48, 103]

/-! ## Hex decoding -/

/-- Induction over a list two elements at a time. -/
theorem list_pair_induction {α : Type} {P : List α → Prop} (h0 : P [])
    (h1 : ∀ x, P [x]) (h2 : ∀ x y l, P l → P (x :: y :: l)) : ∀ l, P l := by
  have key : ∀ n, ∀ l : List α, l.length ≤ n → P l := by
    intro n
    induction n with
    | zero =>
      intro l hl
      match l, hl with
      | [], _ => exact h0
    | succ n ih =>
      intro l hl
      match l, hl with
      | [], _ => exact h0
      | [x], _ => exact h1 x
      | x :: y :: l, hl =>
        apply h2
        apply ih
        simp only [List.length_cons] at hl
        omega
  intro l
  exact key l.length l (Nat.le_refl _)

theorem fromHexChar_hextable :
    ∀ v, v < 256 →
      fromHexChar (hextable.getD (v >>> 4) 0) = some (v >>> 4)
      ∧ fromHexChar (hextable.getD (v &&& 0x0f) 0) = some (v &&& 0x0f)
      ∧ fromHexChar (hextableUpper.getD (v >>> 4) 0) = some (v >>> 4)
      ∧ fromHexChar (hextableUpper.getD (v &&& 0x0f) 0) = some (v &&& 0x0f)
      ∧ (((v >>> 4) <<< 4) ||| (v &&& 0x0f)) = v := by
  decide!

theorem DecodeString_cons_hex (p q a b : Nat) (rest : List Nat)
    (hp : fromHexChar p = some a) (hq : fromHexChar q = some b) :
    DecodeString (p :: q :: rest)
      = (((a <<< 4) ||| b) :: (DecodeString rest).1, (DecodeString rest).2) := by
  rw [DecodeString, hp, hq]

theorem DecodeString_cons_bad (p q : Nat) (rest : List Nat)
    (h : fromHexChar p = none ∨ fromHexChar q = none) :
    DecodeString (p :: q :: rest) = ([], true) := by
  rw [DecodeString]
  rcases h with h | h
  · rw [h]
  · rw [h]
    cases fromHexChar p <;> rfl

theorem DecodeString_EncodeToString (d : List Nat) (hd : ∀ b, b ∈ d → b < 256) :
    DecodeString (EncodeToString d) = (d, false) := by
  induction d with
  | nil => rfl
  | cons v d ih =>
    have hv : v < 256 := hd v (List.mem_cons_self _ _)
    obtain ⟨h1, h2, _, _, h5⟩ := fromHexChar_hextable v hv
    have i1 := ih (fun b hb => hd b (List.mem_cons_of_mem _ hb))
    simp only [EncodeToString] at i1 ⊢
    simp only [List.flatMap_cons, List.cons_append, List.nil_append]
    rw [DecodeString_cons_hex _ _ _ _ _ h1 h2, i1, h5]

theorem DecodeString_EncodeToStringUpper (d : List Nat) (hd : ∀ b, b ∈ d → b < 256) :
    DecodeString (EncodeToStringUpper d) = (d, false) := by
  induction d with
  | nil => rfl
  | cons v d ih =>
    have hv : v < 256 := hd v (List.mem_cons_self _ _)
    obtain ⟨_, _, h3, h4, h5⟩ := fromHexChar_hextable v hv
    have i1 := ih (fun b hb => hd b (List.mem_cons_of_mem _ hb))
    simp only [EncodeToStringUpper] at i1 ⊢
    simp only [List.flatMap_cons, List.cons_append, List.nil_append]
    rw [DecodeString_cons_hex _ _ _ _ _ h3 h4, i1, h5]

/-- C8: `DecodeInput` is the inverse of hex encoding: for every byte sequence `d` it
returns `d` on the lower-case and on the upper-case hex encoding of `d`, and
`hex.DecodeString` reports no error there. -/
theorem DecodeInput_EncodeToString (d : List Nat) (hd : ∀ b ∈ d, b < 256) :
    DecodeInput (EncodeToString d) = d
    ∧ DecodeInput (EncodeToStringUpper d) = d
    ∧ (DecodeString (EncodeToString d)).2 = false
    ∧ (DecodeString (EncodeToStringUpper d)).2 = false := by
  unfold DecodeInput
  rw [DecodeString_EncodeToString d hd, DecodeString_EncodeToStringUpper d hd]
  exact ⟨rfl, rfl, rfl, rfl⟩

/-- Witness of C8 at the three bytes 0x00, 0xab, 0xff. -/
theorem DecodeInput_EncodeToString_witness :
    DecodeInput (EncodeToString [0, 171, 255]) = [0, 171, 255]
    ∧ DecodeInput (EncodeToStringUpper [0, 171, 255]) = [0, 171, 255]
    ∧ (DecodeString (EncodeToString [0, 171, 255])).2 = false
    ∧ (DecodeString (EncodeToStringUpper [0, 171, 255])).2 = false :=
  DecodeInput_EncodeToString [0, 171, 255] (by decide)

/-- C9, as stated, fails: the malformed text "abzz" decodes to the one byte 0xab, the
decode of the shorter valid text "ab". -/
theorem DecodeInput_partial_decode :
    ¬ isHexText [97, 98, 122, 122]
    ∧ DecodeInput [97, 98, 122, 122] = [171]
    ∧ DecodeInput [97, 98, 122, 122] ≠ []
    ∧ DecodeInput [97, 98, 122, 122] = DecodeInput [97, 98] := by
  decide

/-- C9, amended: on a text that is no well-formed hex string `DecodeInput` returns the
bytes decoded before the error: the text splits into a well-formed hex text `pre` and a
non-empty rest that does not start with two hex digits, the result is the decode of
`pre`, it has `pre.length / 2` bytes, fewer than half the length of the text, and
`hex.DecodeString` reports the error (which `DecodeInput` drops). -/
theorem DecodeInput_malformed (s : List Nat) (h : ¬ isHexText s) :
    ∃ pre rest, s = pre ++ rest ∧ isHexText pre ∧ rest ≠ []
      ∧ (∀ p q l, rest = p :: q :: l → fromHexChar p = none ∨ fromHexChar q = none)
      ∧ DecodeInput s = DecodeInput pre
      ∧ 2 * (DecodeInput s).length = pre.length
      ∧ 2 * (DecodeInput s).length < s.length
      ∧ (DecodeString s).2 = true := by
  induction s using list_pair_induction with
  | h0 => exact absurd (by decide) h
  | h1 x =>
    refine ⟨[], [x], rfl, by decide, by simp, ?_, rfl, rfl, by simp [DecodeInput, DecodeString], rfl⟩
    intro p q l hl
    simp at hl
  | h2 x y l ih =>
    cases hx : fromHexChar x with
    | none =>
      refine ⟨[], x :: y :: l, rfl, by decide, by simp, ?_, ?_, ?_, ?_, ?_⟩
      · intro p q l' hl
        simp only [List.cons.injEq] at hl
        left
        rw [← hl.1, hx]
      · show (DecodeString (x :: y :: l)).1 = (DecodeString []).1
        rw [DecodeString_cons_bad x y l (Or.inl hx)]
        rfl
      · simp [DecodeInput, DecodeString_cons_bad x y l (Or.inl hx)]
      · simp [DecodeInput, DecodeString_cons_bad x y l (Or.inl hx)]
      · simp [DecodeString_cons_bad x y l (Or.inl hx)]
    | some a =>
      cases hy : fromHexChar y with
      | none =>
        refine ⟨[], x :: y :: l, rfl, by decide, by simp, ?_, ?_, ?_, ?_, ?_⟩
        · intro p q l' hl
          simp only [List.cons.injEq] at hl
          right
          rw [← hl.2.1, hy]
        · show (DecodeString (x :: y :: l)).1 = (DecodeString []).1
          rw [DecodeString_cons_bad x y l (Or.inr hy)]
          rfl
        · simp [DecodeInput, DecodeString_cons_bad x y l (Or.inr hy)]
        · simp [DecodeInput, DecodeString_cons_bad x y l (Or.inr hy)]
        · simp [DecodeString_cons_bad x y l (Or.inr hy)]
      | some b =>
        have hl : ¬ isHexText l := by
          intro hl
          apply h
          refine ⟨?_, ?_⟩
          · have := hl.1
            simp only [List.length_cons]
            omega
          · intro c hc
            simp only [List.mem_cons] at hc
            rcases hc with rfl | rfl | hc
            · rw [hx]; rfl
            · rw [hy]; rfl
            · exact hl.2 c hc
        obtain ⟨pre, rest, e1, e2, e3, e4, e5, e6, e7, e8⟩ := ih hl
        refine ⟨x :: y :: pre, rest, by rw [e1]; rfl, ?_, e3, e4, ?_, ?_, ?_, ?_⟩
        · refine ⟨?_, ?_⟩
          · have := e2.1
            simp only [List.length_cons]
            omega
          · intro c hc
            simp only [List.mem_cons] at hc
            rcases hc with rfl | rfl | hc
            · rw [hx]; rfl
            · rw [hy]; rfl
            · exact e2.2 c hc
        · unfold DecodeInput at e5 ⊢
          rw [DecodeString_cons_hex x y a b l hx hy, DecodeString_cons_hex x y a b pre hx hy, e5]
        · unfold DecodeInput at e6 ⊢
          rw [DecodeString_cons_hex x y a b l hx hy]
          simp only [List.length_cons]
          omega
        · unfold DecodeInput at e7 ⊢
          rw [DecodeString_cons_hex x y a b l hx hy]
          simp only [List.length_cons]
          omega
        · rw [DecodeString_cons_hex x y a b l hx hy]
          exact e8

/-- Witness of the amended C9 at the text "abzz". -/
theorem DecodeInput_malformed_witness :
    ∃ pre rest, [97, 98, 122, 122] = pre ++ rest ∧ isHexText pre ∧ rest ≠ []
      ∧ (∀ p q l, rest = p :: q :: l → fromHexChar p = none ∨ fromHexChar q = none)
      ∧ DecodeInput [97, 98, 122, 122] = DecodeInput pre
      ∧ 2 * (DecodeInput [97, 98, 122, 122]).length = pre.length
      ∧ 2 * (DecodeInput [97, 98, 122, 122]).length < [97, 98, 122, 122].length
      ∧ (DecodeString [97, 98, 122, 122]).2 = true :=
  DecodeInput_malformed [97, 98, 122, 122] (by decide)

/-! ## The digits of a lane index -/

theorem custom_pow_succ (a k : Nat) : custom_pow a (k + 1) = u32 (custom_pow a k * a) := by
  unfold custom_pow
  rw [List.range_succ, List.foldl_append]
  rfl

theorem custom_pow_eq_mod (a k : Nat) : custom_pow a k = a ^ k % 2 ^ 32 := by
  induction k with
  | zero => rfl
  | succ k ih =>
    have e : a ^ (k + 1) = a ^ k * a := Nat.pow_succ a k
    rw [custom_pow_succ, ih, u32, e, Nat.mod_mul_mod]

theorem custom_pow_eq_pow (a k n : Nat) (hk : k ≤ n) (ha : 1 ≤ a) (hn : a ^ n < 2 ^ 31) :
    custom_pow a k = a ^ k := by
  rw [custom_pow_eq_mod]
  apply Nat.mod_eq_of_lt
  have h1 : a ^ k ≤ a ^ n := Nat.pow_le_pow_right ha hk
  have h2 : (2 : Nat) ^ 31 < 2 ^ 32 := by norm_num
  omega

theorem digits_injective (b n i j : Nat) (hi : i < b ^ n) (hj : j < b ^ n)
    (h : ∀ q, q < n → i / b ^ q % b = j / b ^ q % b) : i = j := by
  have e : (finFunctionFinEquiv.symm ⟨i, hi⟩ : Fin n → Fin b)
      = finFunctionFinEquiv.symm ⟨j, hj⟩ := by
    funext q
    apply Fin.ext
    exact h q.val q.isLt
  have := finFunctionFinEquiv.symm.injective e
  exact congrArg Fin.val this

theorem digits_surjective (b n : Nat) (d : Nat → Nat)
    (hd : ∀ q, q < n → d q < b) : ∃ i, i < b ^ n ∧ ∀ q, q < n → i / b ^ q % b = d q := by
  let f : Fin n → Fin b := fun q => ⟨d q.val, hd q.val q.isLt⟩
  refine ⟨(finFunctionFinEquiv f).val, (finFunctionFinEquiv f).isLt, ?_⟩
  intro q hq
  have e : finFunctionFinEquiv.symm (finFunctionFinEquiv f) = f :=
    Equiv.symm_apply_apply _ _
  have := congrArg (fun g => (g ⟨q, hq⟩).val) e
  exact this

theorem currentDigit_eq (a : SearchArgs) (index p : Nat) (hp : p < a.number_of_wildcards)
    (hb : 1 ≤ a.size_char_set) (hbn : a.size_char_set ^ a.number_of_wildcards < 2 ^ 31) :
    currentDigit a index (a.size_salt_before + p)
      = index / a.size_char_set ^ (a.number_of_wildcards - p - 1) % a.size_char_set := by
  unfold currentDigit
  simp only [Nat.add_sub_cancel_left]
  rw [custom_pow_eq_pow _ _ a.number_of_wildcards (by omega) hb hbn]


theorem getD_inj_of_nodup (l : List Nat) (hl : l.Nodup) (i j : Nat) (hi : i < l.length)
    (hj : j < l.length) (h : l.getD i 0 = l.getD j 0) : i = j := by
  rw [List.getD_eq_getElem l 0 hi, List.getD_eq_getElem l 0 hj] at h
  exact (List.Nodup.getElem_inj_iff hl).mp h

/-- C7: combinatorial completeness.  For a charset size `b ≥ 1` and a wildcard count
`n` with `b^n < 2^31`, the digit the search kernel computes (with `custom_pow`) for the
lane `i` at wildcard position `p` is `(i / b^(n-p-1)) mod b`; it is below `b`; every
`n`-tuple of digits below `b` is the digit tuple of exactly one lane `i < b^n`; and
when the charset bytes are distinct, two lanes below `b^n` with the same wildcard
substring, or with the same candidate, are the same lane. -/
theorem digit_decomposition_bijective (a : SearchArgs) (hb : 1 ≤ a.size_char_set)
    (hbn : a.size_char_set ^ a.number_of_wildcards < 2 ^ 31) :
    (∀ i p, p < a.number_of_wildcards →
      currentDigit a i (a.size_salt_before + p)
        = i / a.size_char_set ^ (a.number_of_wildcards - p - 1) % a.size_char_set
      ∧ currentDigit a i (a.size_salt_before + p) < a.size_char_set)
    ∧ (∀ d : Nat → Nat, (∀ p, p < a.number_of_wildcards → d p < a.size_char_set) →
        ∃! i, i < a.size_char_set ^ a.number_of_wildcards
          ∧ ∀ p, p < a.number_of_wildcards →
              currentDigit a i (a.size_salt_before + p) = d p)
    ∧ (a.char_set.Nodup → a.char_set.length = a.size_char_set →
        ∀ i j, i < a.size_char_set ^ a.number_of_wildcards →
          j < a.size_char_set ^ a.number_of_wildcards →
          ((∀ p, p < a.number_of_wildcards →
              candidateByte a i (a.size_salt_before + p)
                = candidateByte a j (a.size_salt_before + p)) → i = j)
          ∧ (candidate a i = candidate a j → i = j)) := by
  have hdig : ∀ i p, p < a.number_of_wildcards →
      currentDigit a i (a.size_salt_before + p)
        = i / a.size_char_set ^ (a.number_of_wildcards - p - 1) % a.size_char_set :=
    fun i p hp => currentDigit_eq a i p hp hb hbn
  have hinj : ∀ i j, i < a.size_char_set ^ a.number_of_wildcards →
      j < a.size_char_set ^ a.number_of_wildcards →
      (∀ p, p < a.number_of_wildcards →
        currentDigit a i (a.size_salt_before + p) = currentDigit a j (a.size_salt_before + p)) →
      i = j := by
    intro i j hi hj h
    apply digits_injective a.size_char_set a.number_of_wildcards i j hi hj
    intro q hq
    have := h (a.number_of_wildcards - q - 1) (by omega)
    rw [hdig i _ (by omega), hdig j _ (by omega)] at this
    have e : a.number_of_wildcards - (a.number_of_wildcards - q - 1) - 1 = q := by omega
    rw [e] at this
    exact this
  refine ⟨fun i p hp => ⟨hdig i p hp, ?_⟩, ?_, ?_⟩
  · rw [hdig i p hp]
    exact Nat.mod_lt _ hb
  · intro d hd
    obtain ⟨i, hi, hid⟩ := digits_surjective a.size_char_set a.number_of_wildcards
      (fun q => d (a.number_of_wildcards - q - 1)) (fun q hq => hd _ (by omega))
    have hi2 : ∀ p, p < a.number_of_wildcards →
        currentDigit a i (a.size_salt_before + p) = d p := by
      intro p hp
      rw [hdig i p hp, hid _ (by omega)]
      congr 1
      omega
    refine ⟨i, ⟨hi, hi2⟩, ?_⟩
    rintro j ⟨hj, hj2⟩
    apply hinj j i hj hi
    intro p hp
    rw [hj2 p hp, hi2 p hp]
  · intro hnd hlen i j hi hj
    have key : (∀ p, p < a.number_of_wildcards →
        candidateByte a i (a.size_salt_before + p)
          = candidateByte a j (a.size_salt_before + p)) → i = j := by
      intro h
      apply hinj i j hi hj
      intro p hp
      have hp2 := h p hp
      unfold candidateByte at hp2
      rw [if_neg (by omega), if_pos (by omega), if_neg (by omega), if_pos (by omega)] at hp2
      have b1 : currentDigit a i (a.size_salt_before + p) < a.char_set.length := by
        rw [hlen, hdig i p hp]
        exact Nat.mod_lt _ hb
      have b2 : currentDigit a j (a.size_salt_before + p) < a.char_set.length := by
        rw [hlen, hdig j p hp]
        exact Nat.mod_lt _ hb
      exact getD_inj_of_nodup a.char_set hnd _ _ b1 b2 hp2
    refine ⟨key, ?_⟩
    intro hc
    apply key
    intro p hp
    have hlt : a.size_salt_before + p < a.word_size := by
      unfold SearchArgs.word_size
      omega
    have := congrArg (fun l => l.getD (a.size_salt_before + p) 0) hc
    simp only [candidate] at this
    rw [List.getD_eq_getElem _ 0 (by simpa using hlt),
      List.getD_eq_getElem _ 0 (by simpa using hlt)] at this
    simpa using this

/-- Witness of C7 at `b = 2`, `n = 3`: 8 lanes, 8 distinct candidates. -/
theorem digit_decomposition_bijective_witness :
    ((List.range 8).map (candidate argsTwoLettersThreeWildcards)).Nodup
    ∧ (∀ i j, i < 2 ^ 3 → j < 2 ^ 3 →
        candidate argsTwoLettersThreeWildcards i = candidate argsTwoLettersThreeWildcards j →
        i = j) :=
  ⟨by decide, fun i j hi hj h =>
    (((digit_decomposition_bijective argsTwoLettersThreeWildcards (by decide) (by decide)).2.2
      (by decide) (by decide)) i j hi hj).2 h⟩
/-! ## The compression core reads the message only -/

theorem loadWord_congr (pk pk' : Nat → Nat) (ulen msg_pad t : Nat)
    (h : ∀ j, j < ulen → pk j = pk' j) (hb : msg_pad + t * 4 + 3 < ulen) :
    loadWord pk msg_pad t = loadWord pk' msg_pad t := by
  unfold loadWord uchar
  rw [h _ (by omega : msg_pad + t * 4 < ulen), h _ (by omega : msg_pad + t * 4 + 1 < ulen),
    h _ (by omega : msg_pad + t * 4 + 2 < ulen), h _ hb]

theorem tailWord_congr (pk pk' : Nat → Nat) (ulen msg_pad t mmod : Nat)
    (h : ∀ j, j < ulen → pk j = pk' j) (hb : msg_pad + t * 4 + mmod ≤ ulen) :
    tailWord pk msg_pad t mmod = tailWord pk' msg_pad t mmod := by
  unfold tailWord uchar
  split_ifs with h3 h2 h1
  · rw [h _ (by omega : msg_pad + t * 4 < ulen), h _ (by omega : msg_pad + t * 4 + 1 < ulen),
      h _ (by omega : msg_pad + t * 4 + 2 < ulen)]
  · rw [h _ (by omega : msg_pad + t * 4 < ulen), h _ (by omega : msg_pad + t * 4 + 1 < ulen)]
  · rw [h _ (by omega : msg_pad + t * 4 < ulen)]
  · rfl

theorem current_pad_pos (ulen item : Nat) (h : current_pad ulen item > 0) :
    item * 64 + (current_pad ulen item).toNat ≤ ulen := by
  unfold current_pad at h ⊢
  split_ifs at h ⊢ with h1 h2
  · show item * 64 + 64 ≤ ulen
    omega
  · simp only [Int.toNat_ofNat]
    omega
  · omega

theorem fillW_congr (pk pk' : Nat → Nat) (ulen item : Nat)
    (h : ∀ j, j < ulen → pk j = pk' j) : fillW pk ulen item = fillW pk' ulen item := by
  unfold fillW
  by_cases hc : current_pad ulen item > 0
  · have hb := current_pad_pos ulen item hc
    simp only [hc, if_true]
    have e1 : (List.range ((current_pad ulen item).toNat / 4)).foldl
          (fun W t => W.set t (loadWord pk (item * 64) t)) (List.replicate 80 0)
        = (List.range ((current_pad ulen item).toNat / 4)).foldl
          (fun W t => W.set t (loadWord pk' (item * 64) t)) (List.replicate 80 0) := by
      apply List.foldl_ext
      intro W t ht
      rw [List.mem_range] at ht
      rw [loadWord_congr pk pk' ulen (item * 64) t h (by omega)]
    have e2 : tailWord pk (item * 64) ((current_pad ulen item).toNat / 4)
          ((current_pad ulen item).toNat % 4)
        = tailWord pk' (item * 64) ((current_pad ulen item).toNat / 4)
          ((current_pad ulen item).toNat % 4) :=
      tailWord_congr pk pk' ulen _ _ _ h (by omega)
    rw [e1, e2]
  · simp only [hc, if_false]

/-- The words `hash` writes depend only on the first `ulen` bytes behind `plain_key`. -/
theorem hash_congr (pk pk' : Nat → Nat) (ulen : Nat) (h : ∀ j, j < ulen → pk j = pk' j) :
    hash pk ulen = hash pk' ulen := by
  unfold hash
  apply List.foldl_ext
  intro d item _
  unfold hashBlock
  rw [fillW_congr pk pk' ulen item h]

theorem foldl_hashBlock_length (pk : Nat → Nat) (ulen : Nat) (items : List Nat) :
    ∀ d : List Nat, d.length = 8 → (items.foldl (hashBlock pk ulen) d).length = 8 := by
  induction items with
  | nil => intro d hd; exact hd
  | cons x xs ih =>
    intro d _
    rw [List.foldl_cons]
    exact ih _ rfl

/-- The kernel function `hash` always leaves eight words. -/
theorem hash_length (pk : Nat → Nat) (ulen : Nat) : (hash pk ulen).length = 8 :=
  foldl_hashBlock_length pk ulen _ H0_7 rfl

/-! ## Writing a range of a buffer -/

theorem getD_set_eq (l : List Nat) (i k a : Nat) :
    (l.set i a).getD k 0 = if i = k ∧ k < l.length then a else l.getD k 0 := by
  simp only [List.getD_eq_getElem?_getD, List.getElem?_set]
  by_cases hik : i = k
  · subst hik
    by_cases hl : i < l.length
    · simp [hl]
    · simp [hl]
      rw [List.getElem?_eq_none (by omega)]
      rfl
  · simp [hik]

theorem foldl_set_length (g f : Nat → Nat) (n : Nat) (l : List Nat) :
    ((List.range n).foldl (fun buf i => buf.set (g i) (f i)) l).length = l.length := by
  induction n with
  | zero => rfl
  | succ n ih =>
    rw [List.range_succ, List.foldl_append]
    simp only [List.foldl_cons, List.foldl_nil, List.length_set]
    exact ih

theorem foldl_set_getD (off : Nat) (f : Nat → Nat) (n : Nat) (l : List Nat) (k : Nat) :
    ((List.range n).foldl (fun buf i => buf.set (off + i) (f i)) l).getD k 0
      = if off ≤ k ∧ k < off + n ∧ k < l.length then f (k - off) else l.getD k 0 := by
  induction n with
  | zero =>
    simp only [List.range_zero, List.foldl_nil]
    rw [if_neg (by omega)]
  | succ n ih =>
    rw [List.range_succ, List.foldl_append]
    simp only [List.foldl_cons, List.foldl_nil]
    rw [getD_set_eq, ih, foldl_set_length (fun i => off + i) f n l]
    by_cases h1 : off + n = k
    · subst h1
      by_cases h2 : off + n < l.length
      · rw [if_pos ⟨rfl, h2⟩, if_pos (by omega)]
        congr 1
        omega
      · rw [if_neg (by omega), if_neg (by omega), if_neg (by omega)]
    · rw [if_neg (by omega)]
      by_cases h3 : off ≤ k ∧ k < off + n ∧ k < l.length
      · rw [if_pos h3, if_pos (by omega)]
      · rw [if_neg h3, if_neg (by omega)]

theorem foldl_set_getD_zero (f : Nat → Nat) (n : Nat) (l : List Nat) (k : Nat) :
    ((List.range n).foldl (fun buf i => buf.set i (f i)) l).getD k 0
      = if k < n ∧ k < l.length then f k else l.getD k 0 := by
  have h := foldl_set_getD 0 f n l k
  simp only [Nat.zero_add, Nat.zero_le, true_and, Nat.sub_zero] at h
  exact h

/-! ## The lanes of the search kernel -/

theorem materialise_length (a : SearchArgs) (index : Nat) (buffer : List Nat) :
    (materialise a index buffer).length = buffer.length :=
  foldl_set_length (fun i => index * a.word_size + i) (candidateByte a index) _ _

theorem materialise_getD (a : SearchArgs) (index : Nat) (buffer : List Nat)
    (hlen : (index + 1) * a.word_size ≤ buffer.length) (j : Nat) (hj : j < a.word_size) :
    (materialise a index buffer).getD (index * a.word_size + j) 0 = candidateByte a index j := by
  unfold materialise
  rw [foldl_set_getD (index * a.word_size) (candidateByte a index) a.word_size buffer]
  have e : (index + 1) * a.word_size = index * a.word_size + a.word_size := Nat.succ_mul _ _
  rw [if_pos (by omega)]
  congr 1
  omega

theorem candidate_length (a : SearchArgs) (index : Nat) :
    (candidate a index).length = a.word_size := by
  simp [candidate]

theorem candidate_getD (a : SearchArgs) (index j : Nat) (hj : j < a.word_size) :
    (candidate a index).getD j 0 = candidateByte a index j := by
  rw [List.getD_eq_getElem _ 0 (by rw [candidate_length]; exact hj)]
  simp [candidate]

/-- The words `hash` computes in lane `index` are the words of the lane's candidate. -/
theorem hash_materialise (a : SearchArgs) (index : Nat) (buffer : List Nat)
    (hlen : (index + 1) * a.word_size ≤ buffer.length) :
    hash (fun j => (materialise a index buffer).getD (index * a.word_size + j) 0) a.word_size
      = hashWords (candidate a index) := by
  unfold hashWords
  rw [candidate_length]
  apply hash_congr
  intro j hj
  rw [materialise_getD a index buffer hlen j hj, candidate_getD a index j hj]

theorem comp_arrays_eq_one (a1 a2 : Nat → Nat) (size : Nat) :
    comp_arrays a1 a2 size = 1 ↔ ∀ i, i < size → a1 i = a2 i := by
  unfold comp_arrays
  by_cases h : (List.range size).all (fun i => a1 i == a2 i) = true
  · rw [if_pos h]
    simp only [List.all_eq_true, List.mem_range, beq_iff_eq] at h
    simp only [true_iff]
    exact h
  · rw [if_neg h]
    simp only [List.all_eq_true, List.mem_range, beq_iff_eq] at h
    simp only [Nat.zero_ne_one, false_iff]
    exact h

theorem list_eq_of_getD (l1 l2 : List Nat) (n : Nat) (h1 : l1.length = n) (h2 : l2.length = n)
    (h : ∀ k, k < n → l1.getD k 0 = l2.getD k 0) : l1 = l2 := by
  apply List.ext_getElem (by rw [h1, h2])
  intro k hk1 hk2
  have := h k (by omega)
  rw [List.getD_eq_getElem _ 0 hk1, List.getD_eq_getElem _ 0 hk2] at this
  exact this

/-- A lane whose eight digest words differ from the target leaves the match buffer as
it is. -/
theorem lane_without_match (priv : Nat → Nat → Nat) (beyond : List Nat) (a : SearchArgs)
    (m : SearchMem) (index : Nat) (hlen : (index + 1) * a.word_size ≤ m.buffer.length)
    (hd : a.digest_expected.length = 8)
    (hne : hashWords (candidate a index) ≠ a.digest_expected) :
    (runLane priv beyond a m index).matching_wild_card
      = m.matching_wild_card := by
  unfold runLane
  simp only
  split_ifs with hc
  · exfalso
    apply hne
    rw [comp_arrays_eq_one] at hc
    apply list_eq_of_getD _ _ 8 (by unfold hashWords; exact hash_length _ _) hd
    intro k hk
    have := hc k (by omega)
    unfold searchDigest expectedWord at this
    rw [if_pos hk, hash_materialise a index m.buffer hlen,
      List.getD_append _ _ _ _ (by omega)] at this
    exact this
  · rfl

/-- A lane whose eight digest words equal the target, in a run where the other 24 words
compared agree, copies its wildcard bytes to the match buffer. -/
theorem lane_with_match (priv : Nat → Nat → Nat) (beyond : List Nat) (a : SearchArgs)
    (m : SearchMem) (index : Nat) (hlen : (index + 1) * a.word_size ≤ m.buffer.length)
    (hd : a.digest_expected.length = 8)
    (hpad : ∀ k, 8 ≤ k → k < 32 → priv index k = beyond.getD (k - 8) 0)
    (heq : hashWords (candidate a index) = a.digest_expected)
    (j : Nat) (hj : j < a.number_of_wildcards) (hjm : j < m.matching_wild_card.length) :
    (runLane priv beyond a m index).matching_wild_card.getD j 0
      = candidateByte a index (a.size_salt_before + j) := by
  have hc : comp_arrays (searchDigest priv a index (materialise a index m.buffer))
      (expectedWord beyond a) 32 = 1 := by
    rw [comp_arrays_eq_one]
    intro k hk
    unfold searchDigest expectedWord
    by_cases hk8 : k < 8
    · rw [if_pos hk8, hash_materialise a index m.buffer hlen,
        List.getD_append _ _ _ _ (by omega), heq]
    · rw [if_neg hk8, List.getD_append_right _ _ _ _ (by omega), hd]
      exact hpad k (by omega) hk
  unfold runLane
  simp only
  rw [if_pos hc]
  simp only
  rw [foldl_set_getD_zero, if_pos ⟨hj, hjm⟩]
  have hw : a.size_salt_before + j < a.word_size := by
    unfold SearchArgs.word_size
    omega
  rw [Nat.add_assoc, materialise_getD a index m.buffer hlen _ hw]

theorem lane_matching_length (priv : Nat → Nat → Nat) (beyond : List Nat) (a : SearchArgs)
    (m : SearchMem) (index : Nat) :
    (runLane priv beyond a m index).matching_wild_card.length
      = m.matching_wild_card.length := by
  unfold runLane
  simp only
  split_ifs
  · exact foldl_set_length (fun j => j) _ _ _
  · rfl

theorem lane_buffer_length (priv : Nat → Nat → Nat) (beyond : List Nat) (a : SearchArgs)
    (m : SearchMem) (index : Nat) :
    (runLane priv beyond a m index).buffer.length = m.buffer.length := by
  unfold runLane
  simp only
  split_ifs
  · exact materialise_length a index m.buffer
  · exact materialise_length a index m.buffer

theorem lanes_lengths (priv : Nat → Nat → Nat) (beyond : List Nat) (a : SearchArgs)
    (order : List Nat) : ∀ m : SearchMem,
      (order.foldl (runLane priv beyond a) m).buffer.length = m.buffer.length
      ∧ (order.foldl (runLane priv beyond a) m).matching_wild_card.length
          = m.matching_wild_card.length := by
  induction order with
  | nil => intro m; exact ⟨rfl, rfl⟩
  | cons x xs ih =>
    intro m
    rw [List.foldl_cons]
    obtain ⟨h1, h2⟩ := ih (runLane priv beyond a m x)
    rw [h1, h2, lane_buffer_length, lane_matching_length]
    exact ⟨rfl, rfl⟩

theorem searchArgs_digest_length (e : ByteOrder) (charSet : List (List Nat))
    (saltBefore saltAfter : List Nat) (n : Nat) (de : List Nat) :
    (searchArgs e charSet saltBefore saltAfter n de).digest_expected.length = 8 := by
  simp [searchArgs]

/-- The lanes of a launch leave the match buffer unchanged when none of them has the
digest words of the target. -/
theorem lanes_without_match (priv : Nat → Nat → Nat) (beyond : List Nat) (a : SearchArgs)
    (lanes : Nat) (hd : a.digest_expected.length = 8)
    (order : List Nat) (ho : ∀ i, i ∈ order → i < lanes)
    (hno : ∀ i, i ∈ order → hashWords (candidate a i) ≠ a.digest_expected) :
    ∀ m : SearchMem, m.buffer.length = lanes * a.word_size →
      (order.foldl (runLane priv beyond a) m).matching_wild_card
        = m.matching_wild_card := by
  induction order with
  | nil => intro m _; rfl
  | cons x xs ih =>
    intro m hm
    rw [List.foldl_cons]
    have hx : x < lanes := ho x (List.mem_cons_self _ _)
    have hlen : (x + 1) * a.word_size ≤ m.buffer.length := by
      rw [hm]
      exact Nat.mul_le_mul_right _ hx
    rw [ih (fun i hi => ho i (List.mem_cons_of_mem _ hi))
      (fun i hi => hno i (List.mem_cons_of_mem _ hi)) _ (by rw [lane_buffer_length, hm])]
    exact lane_without_match priv beyond a m x hlen hd (hno x (List.mem_cons_self _ _))

theorem lane_with_match_buffer (priv : Nat → Nat → Nat) (beyond : List Nat) (a : SearchArgs)
    (m : SearchMem) (index : Nat) (hlen : (index + 1) * a.word_size ≤ m.buffer.length)
    (hd : a.digest_expected.length = 8)
    (hpad : ∀ k, 8 ≤ k → k < 32 → priv index k = beyond.getD (k - 8) 0)
    (heq : hashWords (candidate a index) = a.digest_expected)
    (hm : m.matching_wild_card.length = a.number_of_wildcards) :
    (runLane priv beyond a m index).matching_wild_card
      = (List.range a.number_of_wildcards).map
          (fun p => candidateByte a index (a.size_salt_before + p)) := by
  apply list_eq_of_getD _ _ a.number_of_wildcards (by rw [lane_matching_length, hm])
    (by simp)
  intro k hk
  rw [lane_with_match priv beyond a m index hlen hd hpad heq k hk (by omega),
    List.getD_eq_getElem _ 0 (by simpa using hk)]
  simp

/-- In a launch that runs every lane once, in which one lane has the digest words of
the target, no other lane has them, and the 24 words compared beyond the digest agree,
the match buffer ends as the wildcard substring of that lane. -/
theorem lanes_unique_match (priv : Nat → Nat → Nat) (beyond : List Nat) (a : SearchArgs)
    (lanes : Nat) (hd : a.digest_expected.length = 8)
    (hpad : ∀ i k, 8 ≤ k → k < 32 → priv i k = beyond.getD (k - 8) 0)
    (i0 : Nat) (hi0 : i0 < lanes) (heq : hashWords (candidate a i0) = a.digest_expected)
    (huniq : ∀ j, j < lanes → j ≠ i0 → hashWords (candidate a j) ≠ a.digest_expected)
    (order : List Nat) (horder : order.Perm (List.range lanes))
    (m : SearchMem) (hm : m.buffer.length = lanes * a.word_size)
    (hmw : m.matching_wild_card.length = a.number_of_wildcards) :
    (order.foldl (runLane priv beyond a) m).matching_wild_card
      = (List.range a.number_of_wildcards).map
          (fun p => candidateByte a i0 (a.size_salt_before + p)) := by
  have hmem : ∀ j, j ∈ order → j < lanes := fun j hj =>
    List.mem_range.mp (horder.mem_iff.mp hj)
  have hnd : order.Nodup := horder.nodup_iff.mpr (List.nodup_range lanes)
  obtain ⟨front, back, hsplit⟩ := List.append_of_mem
    (horder.mem_iff.mpr (List.mem_range.mpr hi0))
  rw [hsplit] at hnd hmem
  have hfront : ∀ j, j ∈ front → j ≠ i0 := by
    intro j hj hji
    subst hji
    have := (List.nodup_append.mp hnd).2.2
    exact this hj (List.mem_cons_self _ _)
  have hback : ∀ j, j ∈ back → j ≠ i0 := by
    intro j hj hji
    subst hji
    have := (List.nodup_cons.mp (List.nodup_append.mp hnd).2.1).1
    exact this hj
  rw [hsplit, List.foldl_append, List.foldl_cons]
  have l1 := lanes_lengths priv beyond a front m
  have hlen : (i0 + 1) * a.word_size
      ≤ (front.foldl (runLane priv beyond a) m).buffer.length := by
    rw [l1.1, hm]
    exact Nat.mul_le_mul_right _ hi0
  rw [lanes_without_match priv beyond a lanes hd back
    (fun j hj => hmem j (by simp [hj]))
    (fun j hj => huniq j (hmem j (by simp [hj])) (hback j hj)) _
    (by rw [lane_buffer_length, l1.1, hm])]
  exact lane_with_match_buffer priv beyond a _ i0 hlen hd (hpad i0) heq (by rw [l1.2, hmw])

/-! ## Launches whose lanes are defined -/

theorem runLanes_cons (priv : Nat → Nat → Nat) (beyond : List Nat) (a : SearchArgs)
    (x : Nat) (xs : List Nat) (m : SearchMem) :
    runLanes priv beyond a (x :: xs) m
      = if laneDefined a x then runLanes priv beyond a xs (runLane priv beyond a m x)
        else none := by
  by_cases h : laneDefined a x
  · simp only [runLanes, sha256_crypt_and_worder, if_pos h]
  · simp only [runLanes, sha256_crypt_and_worder, if_neg h]

/-- A launch all of whose lanes are defined runs the lane bodies one after the other. -/
theorem runLanes_of_defined (priv : Nat → Nat → Nat) (beyond : List Nat) (a : SearchArgs)
    (order : List Nat) (hdef : ∀ i, i ∈ order → laneDefined a i) :
    ∀ m : SearchMem,
      runLanes priv beyond a order m = some (order.foldl (runLane priv beyond a) m) := by
  induction order with
  | nil => intro m; rfl
  | cons x xs ih =>
    intro m
    rw [runLanes_cons, if_pos (hdef x (List.mem_cons_self _ _)), List.foldl_cons]
    exact ih (fun i hi => hdef i (List.mem_cons_of_mem _ hi)) _

/-- A launch that has a result has only defined lanes, and its result is the run of the
lane bodies one after the other. -/
theorem runLanes_some (priv : Nat → Nat → Nat) (beyond : List Nat) (a : SearchArgs)
    (order : List Nat) :
    ∀ m m1 : SearchMem, runLanes priv beyond a order m = some m1 →
      (∀ i, i ∈ order → laneDefined a i) ∧ m1 = order.foldl (runLane priv beyond a) m := by
  induction order with
  | nil =>
    intro m m1 h
    refine ⟨fun i hi => absurd hi (List.not_mem_nil i), ?_⟩
    exact (Option.some.inj h).symm
  | cons x xs ih =>
    intro m m1 h
    rw [runLanes_cons] at h
    by_cases hx : laneDefined a x
    · rw [if_pos hx] at h
      obtain ⟨h1, h2⟩ := ih _ _ h
      refine ⟨?_, by rw [List.foldl_cons]; exact h2⟩
      intro i hi
      rcases List.mem_cons.mp hi with hix | hix
      · rw [hix]; exact hx
      · exact h1 i hix
    · rw [if_neg hx] at h
      exact absurd h (by simp)

/-- A launch with a lane that is not defined has no result. -/
theorem runLanes_undefined (priv : Nat → Nat → Nat) (beyond : List Nat) (a : SearchArgs)
    (order : List Nat) (i : Nat) (hi : i ∈ order) (hnd : ¬ laneDefined a i) (m : SearchMem) :
    runLanes priv beyond a order m = none := by
  cases h : runLanes priv beyond a order m with
  | none => rfl
  | some m1 => exact absurd ((runLanes_some priv beyond a order m m1 h).1 i hi) hnd

/-- The match buffer read back after a launch all of whose lanes are defined. -/
theorem matchBuffer_of_defined (order : List Nat) (priv : Nat → Nat → Nat) (beyond : List Nat)
    (e : ByteOrder) (charSet : List (List Nat)) (saltBefore saltAfter : List Nat) (n : Nat)
    (de : List Nat)
    (hdef : ∀ i, i ∈ order → laneDefined (searchArgs e charSet saltBefore saltAfter n de) i) :
    matchBuffer order priv beyond e charSet saltBefore saltAfter n de
      = some (order.foldl (runLane priv beyond (searchArgs e charSet saltBefore saltAfter n de))
          ⟨List.replicate (PowInt charSet.length n
              * (saltBefore.length + saltAfter.length + n)) 0,
            List.replicate n 0⟩).matching_wild_card := by
  unfold matchBuffer
  simp only
  rw [runLanes_of_defined priv beyond _ order hdef]
  rfl

/-- A match buffer that is read back comes from a launch all of whose lanes are
defined. -/
theorem matchBuffer_some (order : List Nat) (priv : Nat → Nat → Nat) (beyond : List Nat)
    (e : ByteOrder) (charSet : List (List Nat)) (saltBefore saltAfter : List Nat) (n : Nat)
    (de : List Nat) (mb : List Nat)
    (h : matchBuffer order priv beyond e charSet saltBefore saltAfter n de = some mb) :
    (∀ i, i ∈ order → laneDefined (searchArgs e charSet saltBefore saltAfter n de) i)
    ∧ mb = (order.foldl (runLane priv beyond (searchArgs e charSet saltBefore saltAfter n de))
          ⟨List.replicate (PowInt charSet.length n
              * (saltBefore.length + saltAfter.length + n)) 0,
            List.replicate n 0⟩).matching_wild_card := by
  unfold matchBuffer at h
  simp only at h
  rw [Option.map_eq_some'] at h
  obtain ⟨m1, h1, h2⟩ := h
  obtain ⟨hd, hm⟩ := runLanes_some priv beyond _ order _ m1 h1
  exact ⟨hd, by rw [← h2, hm]⟩

theorem matchBuffer_length (order : List Nat) (priv : Nat → Nat → Nat) (beyond : List Nat)
    (e : ByteOrder) (charSet : List (List Nat)) (saltBefore saltAfter : List Nat) (n : Nat)
    (de : List Nat) (mb : List Nat)
    (h : matchBuffer order priv beyond e charSet saltBefore saltAfter n de = some mb) :
    mb.length = n := by
  rw [(matchBuffer_some order priv beyond e charSet saltBefore saltAfter n de mb h).2,
    (lanes_lengths priv beyond _ order _).2]
  exact List.length_replicate _ _

/-- The lanes of a launch of `processWithGpu` are defined when the index, the word size
and their product are below `2^31` and the charset bytes `b` have `1 ≤ b`,
`b^n < 2^31`. -/
theorem laneDefined_searchArgs (e : ByteOrder) (charSet : List (List Nat))
    (saltBefore saltAfter : List Nat) (n : Nat) (de : List Nat) (i : Nat)
    (hi : i < 2 ^ 31) (hw : saltBefore.length + saltAfter.length + n < 2 ^ 31)
    (hoff : i * (saltBefore.length + saltAfter.length + n) < 2 ^ 31)
    (hb : 1 ≤ charSet.flatten.length) (hbn : charSet.flatten.length ^ n < 2 ^ 31) :
    laneDefined (searchArgs e charSet saltBefore saltAfter n de) i := by
  refine ⟨hi, hw, hoff, ?_⟩
  intro pos hpos
  have hpos2 : pos < n := hpos
  show 0 < charSet.flatten.length ∧ charSet.flatten.length < 2 ^ 31
    ∧ custom_pow charSet.flatten.length pos ≠ 0
  refine ⟨hb, ?_, ?_⟩
  · have h1 : charSet.flatten.length ^ 1 ≤ charSet.flatten.length ^ n :=
      Nat.pow_le_pow_right hb (by omega)
    rw [Nat.pow_one] at h1
    omega
  · rw [custom_pow_eq_pow _ pos n (by omega) hb hbn]
    exact Nat.pos_iff_ne_zero.mp (Nat.pow_pos hb)

/-- All lanes of a launch of `processWithGpu` are defined when the charset has single
bytes and the candidate buffer has fewer than `2^31` bytes. -/
theorem lanes_defined_of_buffer_bound (e : ByteOrder) (charSet : List (List Nat))
    (saltBefore saltAfter : List Nat) (n : Nat) (de : List Nat)
    (hcs : charSet ≠ []) (hflat : charSet.flatten.length = charSet.length) (hn : 1 ≤ n)
    (hbuf : charSet.length ^ n * (saltBefore.length + saltAfter.length + n) < 2 ^ 31)
    (i : Nat) (hi : i < charSet.length ^ n) :
    laneDefined (searchArgs e charSet saltBefore saltAfter n de) i := by
  have hb : 1 ≤ charSet.length := List.length_pos.mpr hcs
  have hpow : 1 ≤ charSet.length ^ n := Nat.pow_pos hb
  have h1 : charSet.length ^ n * 1
      ≤ charSet.length ^ n * (saltBefore.length + saltAfter.length + n) :=
    Nat.mul_le_mul_left _ (by omega)
  have h2 : 1 * (saltBefore.length + saltAfter.length + n)
      ≤ charSet.length ^ n * (saltBefore.length + saltAfter.length + n) :=
    Nat.mul_le_mul_right _ hpow
  have h3 : i * (saltBefore.length + saltAfter.length + n)
      ≤ charSet.length ^ n * (saltBefore.length + saltAfter.length + n) :=
    Nat.mul_le_mul_right _ (Nat.le_of_lt hi)
  rw [Nat.mul_one] at h1
  rw [Nat.one_mul] at h2
  apply laneDefined_searchArgs e charSet saltBefore saltAfter n de i (by omega) (by omega)
    (by omega) (by rw [hflat]; exact hb) (by rw [hflat]; omega)

/-! ## The target the kernel receives -/

/-- With 32 or more decoded bytes the target words do not depend on what follows the
decoded bytes in their backing array. -/
theorem searchArgs_append (e : ByteOrder) (charSet : List (List Nat))
    (saltBefore saltAfter : List Nat) (n : Nat) (de spare : List Nat) (h : 32 ≤ de.length) :
    searchArgs e charSet saltBefore saltAfter n (de ++ spare)
      = searchArgs e charSet saltBefore saltAfter n de := by
  have hw : (List.range 8).map (fun k => e.Uint32 (((de ++ spare).drop (4 * k)).take 4))
      = (List.range 8).map (fun k => e.Uint32 ((de.drop (4 * k)).take 4)) := by
    apply List.map_congr_left
    intro k hk
    rw [List.mem_range] at hk
    rw [List.drop_append_of_le_length (by omega),
      List.take_append_of_le_length (by rw [List.length_drop]; omega)]
  unfold searchArgs
  rw [hw]

/-- The function `processWithGpu` for a target that decodes to 32 bytes or more: the
slices stay inside the decoded bytes. -/
theorem processWithGpu_of_decoded (order : List Nat) (priv : Nat → Nat → Nat)
    (beyond spare : List Nat) (e : ByteOrder) (charSet : List (List Nat))
    (saltBefore saltAfter : List Nat) (n : Nat) (t : List Nat)
    (h : 32 ≤ (DecodeInput t).length) :
    processWithGpu order priv beyond spare e charSet saltBefore saltAfter n t
      = (matchBuffer order priv beyond e charSet saltBefore saltAfter n (DecodeInput t)).map
          (readResult n) := by
  have hlt : ¬ (DecodeInput t).length + spare.length < 32 := by omega
  have hm : matchBuffer order priv beyond e charSet saltBefore saltAfter n
      (DecodeInput t ++ spare)
      = matchBuffer order priv beyond e charSet saltBefore saltAfter n (DecodeInput t) := by
    unfold matchBuffer
    rw [searchArgs_append e charSet saltBefore saltAfter n _ spare h]
  show (if (DecodeInput t).length + spare.length < 32 then none
    else (matchBuffer order priv beyond e charSet saltBefore saltAfter n
      (DecodeInput t ++ spare)).map (readResult n)) = _
  rw [if_neg hlt, hm]

/-- What `processWithGpu` returns, for every target: nothing with a capacity below 32,
the result read from the match buffer otherwise. -/
theorem processWithGpu_eq (order : List Nat) (priv : Nat → Nat → Nat)
    (beyond spare : List Nat) (e : ByteOrder) (charSet : List (List Nat))
    (saltBefore saltAfter : List Nat) (n : Nat) (t : List Nat) :
    processWithGpu order priv beyond spare e charSet saltBefore saltAfter n t
      = if (DecodeInput t).length + spare.length < 32 then none
        else (matchBuffer order priv beyond e charSet saltBefore saltAfter n
          (DecodeInput t ++ spare)).map (readResult n) :=
  rfl

/-! ## The result of a search -/

theorem DecodeInput_length_of_isHexText (s : List Nat) (h : isHexText s) :
    2 * (DecodeInput s).length = s.length := by
  induction s using list_pair_induction with
  | h0 => rfl
  | h1 x =>
    have := h.1
    simp at this
  | h2 x y l ih =>
    have hx := h.2 x (by simp)
    have hy := h.2 y (by simp)
    obtain ⟨a, ha⟩ := Option.isSome_iff_exists.mp hx
    obtain ⟨b, hb⟩ := Option.isSome_iff_exists.mp hy
    have hl : isHexText l := by
      refine ⟨?_, fun c hc => h.2 c (by simp [hc])⟩
      have := h.1
      simp only [List.length_cons] at this
      omega
    have := ih hl
    unfold DecodeInput at this ⊢
    rw [DecodeString_cons_hex x y a b l ha hb]
    simp only [List.length_cons]
    omega

theorem wildcard_byte_ne_zero (a : SearchArgs) (index : Nat)
    (hn : 1 ≤ a.number_of_wildcards) (hsize : a.size_char_set = a.char_set.length)
    (hcs : a.char_set ≠ []) (hnz : ∀ c, c ∈ a.char_set → c ≠ 0) :
    candidateByte a index a.size_salt_before ≠ 0 := by
  unfold candidateByte
  rw [if_neg (by omega), if_pos (by omega)]
  have hpos : 0 < a.char_set.length := List.length_pos.mpr hcs
  have hlt : currentDigit a index a.size_salt_before < a.char_set.length := by
    unfold currentDigit
    simp only
    rw [hsize]
    exact Nat.mod_lt _ hpos
  rw [List.getD_eq_getElem _ 0 hlt]
  exact hnz _ (List.getElem_mem _)

/-- Once the first byte of the match buffer is not zero it stays so, in a run where the
24 words compared beyond the digest agree. -/
theorem lanes_keep_match (priv : Nat → Nat → Nat) (beyond : List Nat) (a : SearchArgs)
    (lanes : Nat) (hd : a.digest_expected.length = 8)
    (hpad : ∀ i k, 8 ≤ k → k < 32 → priv i k = beyond.getD (k - 8) 0)
    (hn : 1 ≤ a.number_of_wildcards)
    (hbyte : ∀ index, candidateByte a index a.size_salt_before ≠ 0)
    (order : List Nat) (ho : ∀ i, i ∈ order → i < lanes) :
    ∀ m : SearchMem, m.buffer.length = lanes * a.word_size →
      m.matching_wild_card.length = a.number_of_wildcards →
      m.matching_wild_card.getD 0 0 ≠ 0 →
      (order.foldl (runLane priv beyond a) m).matching_wild_card.getD 0 0
        ≠ 0 := by
  induction order with
  | nil => intro m _ _ h; exact h
  | cons x xs ih =>
    intro m hm hmw hgood
    rw [List.foldl_cons]
    have hx : x < lanes := ho x (List.mem_cons_self _ _)
    have hlen : (x + 1) * a.word_size ≤ m.buffer.length := by
      rw [hm]
      exact Nat.mul_le_mul_right _ hx
    apply ih (fun i hi => ho i (List.mem_cons_of_mem _ hi))
    · rw [lane_buffer_length, hm]
    · rw [lane_matching_length, hmw]
    · by_cases heq : hashWords (candidate a x) = a.digest_expected
      · rw [lane_with_match priv beyond a m x hlen hd (hpad x) heq 0 (by omega) (by omega)]
        exact hbyte x
      · rw [lane_without_match priv beyond a m x hlen hd heq]
        exact hgood

/-- After a launch in which some lane has the digest words of the target, the first
byte of the match buffer is not zero, in a run where the 24 words compared beyond the
digest agree. -/
theorem lanes_find_match (priv : Nat → Nat → Nat) (beyond : List Nat) (a : SearchArgs)
    (lanes : Nat) (hd : a.digest_expected.length = 8)
    (hpad : ∀ i k, 8 ≤ k → k < 32 → priv i k = beyond.getD (k - 8) 0)
    (hn : 1 ≤ a.number_of_wildcards)
    (hbyte : ∀ index, candidateByte a index a.size_salt_before ≠ 0)
    (i0 : Nat) (heq : hashWords (candidate a i0) = a.digest_expected)
    (order : List Nat) (ho : ∀ i, i ∈ order → i < lanes) (hi0 : i0 ∈ order) :
    ∀ m : SearchMem, m.buffer.length = lanes * a.word_size →
      m.matching_wild_card.length = a.number_of_wildcards →
      (order.foldl (runLane priv beyond a) m).matching_wild_card.getD 0 0
        ≠ 0 := by
  induction order with
  | nil => simp at hi0
  | cons x xs ih =>
    intro m hm hmw
    rw [List.foldl_cons]
    have hx : x < lanes := ho x (List.mem_cons_self _ _)
    have hlen : (x + 1) * a.word_size ≤ m.buffer.length := by
      rw [hm]
      exact Nat.mul_le_mul_right _ hx
    by_cases hxi : x = i0
    · subst hxi
      apply lanes_keep_match priv beyond a lanes hd hpad hn hbyte xs
        (fun i hi => ho i (List.mem_cons_of_mem _ hi))
      · rw [lane_buffer_length, hm]
      · rw [lane_matching_length, hmw]
      · rw [lane_with_match priv beyond a m x hlen hd (hpad x) heq 0 (by omega) (by omega)]
        exact hbyte x
    · have hmem : i0 ∈ xs := by
        rcases List.mem_cons.mp hi0 with h | h
        · exact absurd h.symm hxi
        · exact h
      apply ih (fun i hi => ho i (List.mem_cons_of_mem _ hi)) hmem
      · rw [lane_buffer_length, hm]
      · rw [lane_matching_length, hmw]

theorem readResult_eq_nil_iff (n : Nat) (result : List Nat) (hlen : result.length = n) :
    readResult n result = [] ↔ ∀ b, b ∈ result → b = 0 := by
  unfold readResult
  by_cases h : (List.range n).any (fun i => result.getD i 0 != 0) = true
  · rw [if_pos h]
    simp only [List.any_eq_true, List.mem_range, bne_iff_ne, ne_eq] at h
    obtain ⟨i, hi, hne⟩ := h
    rw [List.getD_eq_getElem _ 0 (by omega)] at hne
    constructor
    · intro hr
      rw [hr] at hlen
      simp only [List.length_nil] at hlen
      omega
    · intro hz
      exact absurd (hz _ (List.getElem_mem _)) hne
  · rw [if_neg h]
    simp only [List.any_eq_true, List.mem_range, bne_iff_ne, ne_eq, not_exists, not_and,
      not_not] at h
    simp only [true_iff]
    intro b hb
    obtain ⟨i, hi, rfl⟩ := List.getElem_of_mem hb
    have := h i (by omega)
    rw [List.getD_eq_getElem _ 0 hi] at this
    exact this

theorem readResult_cases (n : Nat) (result : List Nat) :
    readResult n result = [] ∨ readResult n result = result := by
  unfold readResult
  split_ifs
  · exact Or.inr rfl
  · exact Or.inl rfl

theorem searchArgs_fields (e : ByteOrder) (charSet : List (List Nat))
    (saltBefore saltAfter : List Nat) (n : Nat) (de : List Nat) :
    (searchArgs e charSet saltBefore saltAfter n de).salt_before = saltBefore ++ [88]
    ∧ (searchArgs e charSet saltBefore saltAfter n de).size_salt_before = saltBefore.length
    ∧ (searchArgs e charSet saltBefore saltAfter n de).salt_after = saltAfter ++ [88]
    ∧ (searchArgs e charSet saltBefore saltAfter n de).size_salt_after = saltAfter.length
    ∧ (searchArgs e charSet saltBefore saltAfter n de).number_of_wildcards = n
    ∧ (searchArgs e charSet saltBefore saltAfter n de).char_set = charSet.flatten
    ∧ (searchArgs e charSet saltBefore saltAfter n de).size_char_set = charSet.flatten.length :=
  ⟨rfl, rfl, rfl, rfl, rfl, rfl, rfl⟩

theorem getD_append3 (x y z : List Nat) (k : Nat) :
    (x ++ y ++ z).getD k 0
      = if k < x.length then x.getD k 0
        else if k < x.length + y.length then y.getD (k - x.length) 0
        else z.getD (k - x.length - y.length) 0 := by
  by_cases h1 : k < x.length
  · rw [if_pos h1, List.append_assoc, List.getD_append x (y ++ z) 0 k h1]
  · rw [if_neg h1, List.append_assoc, List.getD_append_right x (y ++ z) 0 k (by omega)]
    by_cases h2 : k < x.length + y.length
    · rw [if_pos h2, List.getD_append y z 0 (k - x.length) (by omega)]
    · rw [if_neg h2, List.getD_append_right y z 0 (k - x.length) (by omega)]

/-- The candidate of a lane of the launch of `processWithGpu` is the salt before, the
wildcard substring (the charset bytes at the digits of the lane index) and the salt
after. -/
theorem candidate_searchArgs (e : ByteOrder) (charSet : List (List Nat))
    (saltBefore saltAfter : List Nat) (n : Nat) (de : List Nat) (i : Nat) :
    candidate (searchArgs e charSet saltBefore saltAfter n de) i
      = saltBefore
        ++ (List.range n).map (fun p => charSet.flatten.getD
            (currentDigit (searchArgs e charSet saltBefore saltAfter n de) i
              (saltBefore.length + p)) 0)
        ++ saltAfter := by
  have hW : (searchArgs e charSet saltBefore saltAfter n de).word_size
      = saltBefore.length + saltAfter.length + n := rfl
  apply list_eq_of_getD _ _ (saltBefore.length + saltAfter.length + n)
    (by rw [candidate_length, hW])
    (by simp only [List.length_append, List.length_map, List.length_range]; omega)
  intro k hk
  rw [candidate_getD _ _ _ (by rw [hW]; exact hk), getD_append3]
  simp only [List.length_map, List.length_range]
  obtain ⟨f1, f2, f3, _, f5, f6, _⟩ := searchArgs_fields e charSet saltBefore saltAfter n de
  unfold candidateByte
  rw [f1, f2, f3, f5, f6]
  by_cases h1 : k < saltBefore.length
  · rw [if_pos h1, if_pos h1, List.getD_append saltBefore [88] 0 k h1]
  · rw [if_neg h1, if_neg h1]
    by_cases h2 : k < saltBefore.length + n
    · rw [if_pos h2, if_pos h2,
        List.getD_eq_getElem ((List.range n).map _) 0
          (by simp only [List.length_map, List.length_range]; omega)]
      simp only [List.getElem_map, List.getElem_range]
      have e1 : saltBefore.length + (k - saltBefore.length) = k := by omega
      rw [e1]
    · rw [if_neg h2, if_neg h2,
        List.getD_append saltAfter [88] 0 (k - saltBefore.length - n) (by omega)]

theorem flatten_length_of_single_bytes (charSet : List (List Nat))
    (h : ∀ c, c ∈ charSet → c.length = 1) : charSet.flatten.length = charSet.length := by
  induction charSet with
  | nil => rfl
  | cons c cs ih =>
    rw [List.flatten_cons, List.length_append, h c (List.mem_cons_self _ _),
      ih (fun x hx => h x (List.mem_cons_of_mem _ hx)), List.length_cons]
    omega

theorem currentDigit_searchArgs (e : ByteOrder) (charSet : List (List Nat))
    (saltBefore saltAfter : List Nat) (n : Nat) (de : List Nat) (i p : Nat) (hp : p < n)
    (hb : 1 ≤ charSet.flatten.length) (hbn : charSet.flatten.length ^ n < 2 ^ 31) :
    currentDigit (searchArgs e charSet saltBefore saltAfter n de) i (saltBefore.length + p)
      = i / charSet.flatten.length ^ (n - p - 1) % charSet.flatten.length :=
  currentDigit_eq (searchArgs e charSet saltBefore saltAfter n de) i p hp hb hbn

/-- The candidate a lane materialises is the candidate of the specification when
`charsetSize^wildcardCount < 2^31`. -/
theorem candidate_eq_wildcardOf (e : ByteOrder) (charSet : List (List Nat))
    (saltBefore saltAfter : List Nat) (n : Nat) (de : List Nat) (i : Nat)
    (hb : 1 ≤ charSet.flatten.length) (hbn : charSet.flatten.length ^ n < 2 ^ 31) :
    candidate (searchArgs e charSet saltBefore saltAfter n de) i
      = saltBefore ++ wildcardOf charSet n i ++ saltAfter := by
  rw [candidate_searchArgs]
  congr 2
  unfold wildcardOf
  apply List.map_congr_left
  intro p hp
  rw [List.mem_range] at hp
  rw [currentDigit_searchArgs e charSet saltBefore saltAfter n de i p hp hb hbn]

theorem getD_of_single_bytes (charSet : List (List Nat))
    (h : ∀ c, c ∈ charSet → c.length = 1) :
    ∀ k, k < charSet.length → charSet.getD k [] = [charSet.flatten.getD k 0] := by
  induction charSet with
  | nil =>
    intro k hk
    simp at hk
  | cons c cs ih =>
    intro k hk
    have hc := h c (List.mem_cons_self _ _)
    match c, hc with
    | [x], _ =>
      cases k with
      | zero => rfl
      | succ k =>
        have hk2 : k < cs.length := by
          simp only [List.length_cons] at hk
          omega
        have := ih (fun y hy => h y (List.mem_cons_of_mem _ hy)) k hk2
        simpa using this

theorem flatten_map_singleton (f : Nat → Nat) (l : List Nat) :
    (l.map (fun p => [f p])).flatten = l.map f := by
  induction l with
  | nil => rfl
  | cons x xs ih =>
    rw [List.map_cons, List.flatten_cons, ih]
    rfl

/-- For a non-empty charset of single-byte characters the candidate over the characters
is the candidate over the bytes of the merged charset. -/
theorem charsetCandidate_eq (charSet : List (List Nat)) (saltBefore saltAfter : List Nat)
    (n i : Nat) (hcs : charSet ≠ []) (h : ∀ c, c ∈ charSet → c.length = 1) :
    charsetCandidate charSet saltBefore saltAfter n i
      = saltBefore ++ wildcardOf charSet n i ++ saltAfter := by
  have hflat := flatten_length_of_single_bytes charSet h
  have hpos : 0 < charSet.length := List.length_pos.mpr hcs
  unfold charsetCandidate wildcardOf
  rw [hflat]
  congr 2
  refine Eq.trans ?_ (flatten_map_singleton (fun p => charSet.flatten.getD
    (i / charSet.length ^ (n - p - 1) % charSet.length) 0) (List.range n))
  congr 1
  apply List.map_congr_left
  intro p _
  exact getD_of_single_bytes charSet h _ (Nat.mod_lt _ hpos)

/-- The candidate a lane of the launch materialises is the candidate over the characters
of the charset, for a non-empty charset of single-byte characters with
`charsetSize^wildcardCount < 2^31`. -/
theorem candidate_eq_charsetCandidate (e : ByteOrder) (charSet : List (List Nat))
    (saltBefore saltAfter : List Nat) (n : Nat) (de : List Nat) (i : Nat)
    (hcs : charSet ≠ []) (h : ∀ c, c ∈ charSet → c.length = 1)
    (hbn : charSet.length ^ n < 2 ^ 31) :
    candidate (searchArgs e charSet saltBefore saltAfter n de) i
      = charsetCandidate charSet saltBefore saltAfter n i := by
  have hflat := flatten_length_of_single_bytes charSet h
  rw [charsetCandidate_eq charSet saltBefore saltAfter n i hcs h]
  exact candidate_eq_wildcardOf e charSet saltBefore saltAfter n de i
    (by rw [hflat]; exact List.length_pos.mpr hcs) (by rw [hflat]; exact hbn)

theorem pow_lt_of_buffer_bound (b n w : Nat) (hn : 1 ≤ n) (h : b ^ n * (w + n) < 2 ^ 31) :
    b ^ n < 2 ^ 31 := by
  have h1 : b ^ n * 1 ≤ b ^ n * (w + n) := Nat.mul_le_mul_left _ (by omega)
  omega

theorem matchBuffer_append (order : List Nat) (priv : Nat → Nat → Nat) (beyond : List Nat)
    (e : ByteOrder) (charSet : List (List Nat)) (saltBefore saltAfter : List Nat) (n : Nat)
    (de spare : List Nat) (h : 32 ≤ de.length) :
    matchBuffer order priv beyond e charSet saltBefore saltAfter n (de ++ spare)
      = matchBuffer order priv beyond e charSet saltBefore saltAfter n de := by
  unfold matchBuffer
  rw [searchArgs_append e charSet saltBefore saltAfter n de spare h]

/-- The search finds a unique match in a run where the 24 words compared beyond the
digest agree: with at least one wildcard, a charset that is not empty and has no zero
byte, a target of at least 32 decoded bytes, and all lanes defined and run in any order,
if lane `i0` has the eight digest words of the target and no other lane has them, then
`processWithGpu` returns the wildcard substring of lane `i0`. -/
theorem search_finds_unique_match (order : List Nat) (priv : Nat → Nat → Nat)
    (beyond spare : List Nat) (e : ByteOrder) (charSet : List (List Nat))
    (saltBefore saltAfter : List Nat) (n : Nat) (expectedDigest : List Nat)
    (hde : 32 ≤ (DecodeInput expectedDigest).length)
    (hn : 1 ≤ n) (hcs : charSet.flatten ≠ []) (hnz : ∀ c, c ∈ charSet.flatten → c ≠ 0)
    (horder : order.Perm (List.range (PowInt charSet.length n)))
    (hdef : ∀ i, i < PowInt charSet.length n →
      laneDefined (searchArgs e charSet saltBefore saltAfter n (DecodeInput expectedDigest)) i)
    (hpad : ∀ i k, 8 ≤ k → k < 32 → priv i k = beyond.getD (k - 8) 0)
    (i0 : Nat) (hi0 : i0 < PowInt charSet.length n)
    (heq : hashWords (candidate
          (searchArgs e charSet saltBefore saltAfter n (DecodeInput expectedDigest)) i0)
        = (searchArgs e charSet saltBefore saltAfter n
            (DecodeInput expectedDigest)).digest_expected)
    (huniq : ∀ j, j < PowInt charSet.length n → j ≠ i0 →
      hashWords (candidate
          (searchArgs e charSet saltBefore saltAfter n (DecodeInput expectedDigest)) j)
        ≠ (searchArgs e charSet saltBefore saltAfter n
            (DecodeInput expectedDigest)).digest_expected) :
    processWithGpu order priv beyond spare e charSet saltBefore saltAfter n expectedDigest
      = some ((List.range n).map (fun p => charSet.flatten.getD
          (currentDigit (searchArgs e charSet saltBefore saltAfter n
            (DecodeInput expectedDigest)) i0 (saltBefore.length + p)) 0)) := by
  have hmem : ∀ j, j ∈ order → j < PowInt charSet.length n := fun j hj =>
    List.mem_range.mp (horder.mem_iff.mp hj)
  have hbuf : matchBuffer order priv beyond e charSet saltBefore saltAfter n
      (DecodeInput expectedDigest)
      = some ((List.range n).map (fun p => charSet.flatten.getD
          (currentDigit (searchArgs e charSet saltBefore saltAfter n
            (DecodeInput expectedDigest)) i0 (saltBefore.length + p)) 0)) := by
    rw [matchBuffer_of_defined order priv beyond e charSet saltBefore saltAfter n _
        (fun i hi => hdef i (hmem i hi)),
      lanes_unique_match priv beyond _ (PowInt charSet.length n)
        (searchArgs_digest_length _ _ _ _ _ _) hpad i0 hi0 heq huniq order horder _
        (by simp [searchArgs, SearchArgs.word_size]) (by simp [searchArgs])]
    congr 1
    apply List.map_congr_left
    intro p hp
    have hp2 : p < n := List.mem_range.mp hp
    obtain ⟨_, f2, _, _, f5, f6, _⟩ := searchArgs_fields e charSet saltBefore saltAfter n
      (DecodeInput expectedDigest)
    unfold candidateByte
    rw [f2, f5, f6, if_neg (by omega), if_pos (by omega)]
  have hbyte := wildcard_byte_ne_zero
    (searchArgs e charSet saltBefore saltAfter n (DecodeInput expectedDigest)) i0 hn rfl hcs hnz
  have hbyte2 : charSet.flatten.getD
      (currentDigit (searchArgs e charSet saltBefore saltAfter n (DecodeInput expectedDigest))
        i0 (saltBefore.length + 0)) 0 ≠ 0 := by
    intro h
    apply hbyte
    obtain ⟨_, f2, _, _, f5, f6, _⟩ := searchArgs_fields e charSet saltBefore saltAfter n
      (DecodeInput expectedDigest)
    unfold candidateByte
    rw [f2, f5, f6, if_neg (by omega), if_pos (by omega)]
    exact h
  rw [processWithGpu_of_decoded order priv beyond spare e charSet saltBefore saltAfter n
    expectedDigest hde, hbuf, Option.map_some']
  congr 1
  rcases readResult_cases n ((List.range n).map (fun p => charSet.flatten.getD
      (currentDigit (searchArgs e charSet saltBefore saltAfter n
        (DecodeInput expectedDigest)) i0 (saltBefore.length + p)) 0)) with h | h
  · exfalso
    rw [readResult_eq_nil_iff n _ (by simp)] at h
    apply hbyte2
    apply h
    rw [List.mem_map]
    exact ⟨0, List.mem_range.mpr (by omega), rfl⟩
  · exact h

/-- A launch in which the kernel's power `custom_pow(base, pos)` is zero at a wildcard
position divides by zero in every lane: a call of `processWithGpu` that launches a lane
returns nothing. -/
theorem search_undefined_when_power_is_zero (order : List Nat) (priv : Nat → Nat → Nat)
    (beyond spare : List Nat) (e : ByteOrder) (charSet : List (List Nat))
    (saltBefore saltAfter : List Nat) (n : Nat) (expectedDigest : List Nat)
    (pos : Nat) (hpos : pos < n) (hz : custom_pow charSet.flatten.length pos = 0)
    (hne : order ≠ []) :
    processWithGpu order priv beyond spare e charSet saltBefore saltAfter n expectedDigest
      = none := by
  rw [processWithGpu_eq]
  split_ifs
  · rfl
  · obtain ⟨x, hx⟩ := List.exists_mem_of_ne_nil order hne
    unfold matchBuffer
    simp only
    rw [runLanes_undefined priv beyond _ order x hx (fun hd => (hd.2.2.2 pos hpos).2.2 hz)]
    rfl

/-- C10: result length.  For every search request: whatever the `numberOfWildCards`
bytes are that the host reads back from the match buffer, the string its last loop
yields is empty or has exactly `numberOfWildCards` bytes, is empty exactly when every
byte read back is zero, and otherwise is the whole match buffer; every string `r` that
`processWithGpu` returns is the string this loop yields from the match buffer read back
after the launch, so that it has these three properties; and the call returns a string
when the slices `de[0:4] .. de[28:32]` are within the capacity of the decoded target and
every lane of the launch is defined. -/
theorem result_is_empty_or_match_buffer (order : List Nat) (priv : Nat → Nat → Nat)
    (beyond spare : List Nat) (e : ByteOrder) (charSet : List (List Nat))
    (saltBefore saltAfter : List Nat) (n : Nat) (expectedDigest : List Nat) :
    (∀ result : List Nat, result.length = n →
      (readResult n result = [] ∨ (readResult n result).length = n)
      ∧ (readResult n result = [] ↔ ∀ b, b ∈ result → b = 0)
      ∧ (readResult n result ≠ [] → readResult n result = result))
    ∧ (∀ r, processWithGpu order priv beyond spare e charSet saltBefore saltAfter n
          expectedDigest = some r →
      ∃ mb, matchBuffer order priv beyond e charSet saltBefore saltAfter n
            (DecodeInput expectedDigest ++ spare) = some mb
        ∧ mb.length = n
        ∧ r = readResult n mb
        ∧ (r = [] ∨ r.length = n)
        ∧ (r = [] ↔ ∀ b, b ∈ mb → b = 0)
        ∧ (r ≠ [] → r = mb))
    ∧ (32 ≤ (DecodeInput expectedDigest).length + spare.length →
        (∀ i, i ∈ order → laneDefined (searchArgs e charSet saltBefore saltAfter n
            (DecodeInput expectedDigest ++ spare)) i) →
        ∃ r, processWithGpu order priv beyond spare e charSet saltBefore saltAfter n
          expectedDigest = some r) := by
  have hloop : ∀ result : List Nat, result.length = n →
      (readResult n result = [] ∨ (readResult n result).length = n)
      ∧ (readResult n result = [] ↔ ∀ b, b ∈ result → b = 0)
      ∧ (readResult n result ≠ [] → readResult n result = result) := by
    intro result hlen
    refine ⟨?_, readResult_eq_nil_iff n result hlen, ?_⟩
    · rcases readResult_cases n result with h | h
      · exact Or.inl h
      · right
        rw [h]
        exact hlen
    · intro hne
      rcases readResult_cases n result with h | h
      · exact absurd h hne
      · exact h
  rw [processWithGpu_eq]
  refine ⟨hloop, ?_, ?_⟩
  · intro r hr
    by_cases hcap : (DecodeInput expectedDigest).length + spare.length < 32
    · rw [if_pos hcap] at hr
      exact absurd hr (by simp)
    · rw [if_neg hcap, Option.map_eq_some'] at hr
      obtain ⟨mb, hmb, hrr⟩ := hr
      have hlen := matchBuffer_length order priv beyond e charSet saltBefore saltAfter n _ mb hmb
      obtain ⟨h1, h2, h3⟩ := hloop mb hlen
      rw [hrr] at h1 h2 h3
      exact ⟨mb, hmb, hlen, hrr.symm, h1, h2, h3⟩
  · intro hcap hdef
    rw [if_neg (by omega),
      matchBuffer_of_defined order priv beyond e charSet saltBefore saltAfter n _ hdef]
    exact ⟨_, rfl⟩

/-- Witness of C10: the search of the test with the salt "t" before one wildcard over
"d", "e" and the target the digest of "te" returns the one byte "e", which is the whole
match buffer. -/
theorem result_is_empty_or_match_buffer_witness :
    ∃ mb, matchBuffer [0, 1] (fun _ _ => 0) (List.replicate 24 0) .BigEndian
          [[100], [101]] [116] [] 1 (DecodeInput digestOfTE ++ []) = some mb
      ∧ mb.length = 1
      ∧ [101] = readResult 1 mb
      ∧ (([101] : List Nat) = [] ∨ ([101] : List Nat).length = 1)
      ∧ (([101] : List Nat) = [] ↔ ∀ b, b ∈ mb → b = 0)
      ∧ (([101] : List Nat) ≠ [] → [101] = mb) :=
  (result_is_empty_or_match_buffer [0, 1] (fun _ _ => 0) (List.replicate 24 0) [] .BigEndian
    [[100], [101]] [116] [] 1 digestOfTE).2.1 [101] (by decide!)

/-- A target of 64 characters with a malformed last pair decodes to 31 bytes.  When the
backing array of the decoded bytes has a 32nd byte (here 0) the call goes on with it and
returns a string, here the empty one; when it has none the slice `de[28:32]` panics. -/
theorem malformed_target_returns_within_capacity :
    (DecodeInput targetWithBadLastPair).length = 31
    ∧ processWithGpu [0, 1] (fun _ _ => 0) (List.replicate 24 0) [0] .BigEndian
        [[100], [101]] [] [] 1 targetWithBadLastPair = some []
    ∧ processWithGpu [0, 1] (fun _ _ => 0) (List.replicate 24 0) [] .BigEndian
        [[100], [101]] [] [] 1 targetWithBadLastPair = none := by
  decide!

/-- C5, as stated, fails: for the charset of the one string "0123456789abcdef", nine
wildcards, no salts and the well-formed target the digest of "f", the host launches
`PowInt(1, 9) = 1` lane and passes the base 16 to the kernel; no enumerated candidate
has the digest of the target; at the first wildcard position the lane divides by
`custom_pow(16, 8)`, which is 0 in 32 bits, so that the lane is not defined and the call
does not return the empty string. -/
theorem no_match_without_result_when_power_is_zero :
    digestOfF.length = 64 ∧ isHexText digestOfF
    ∧ charSetOneString16 ≠ []
    ∧ numberOfWordToTest charSetOneString16 9 = 1
    ∧ (∀ i, i < numberOfWordToTest charSetOneString16 9 →
        hashWords (charsetCandidate charSetOneString16 [] [] 9 i)
          ≠ (searchArgs .BigEndian charSetOneString16 [] [] 9
              (DecodeInput digestOfF)).digest_expected)
    ∧ (searchArgs .BigEndian charSetOneString16 [] [] 9 (DecodeInput digestOfF)).size_char_set
        = 16
    ∧ custom_pow 16 8 = 0
    ∧ ¬ laneDefined (searchArgs .BigEndian charSetOneString16 [] [] 9 (DecodeInput digestOfF)) 0
    ∧ processWithGpu [0] (fun _ _ => 0) (List.replicate 24 0) [] .BigEndian
        charSetOneString16 [] [] 9 digestOfF = none := by
  decide!

/-- C5, amended: no match returns empty.  For a well-formed target of 64 hex characters,
a non-empty charset of single-byte characters, at least one wildcard, a candidate buffer
of fewer than `2^31` bytes (`charsetSize^wildcardCount * wordSize < 2^31`) and a launch
that runs the lanes `0 .. PowInt(len(charSet), numberOfWildCards) - 1` in any order: if
no enumerated candidate has the eight digest words of the target, then the match buffer
is all zero after every number of lanes run (no lane writes it) and `processWithGpu`
returns the empty string (it does not abort).  This holds whatever the uninitialised
words are. -/
theorem no_match_returns_empty (order : List Nat) (priv : Nat → Nat → Nat)
    (beyond spare : List Nat) (e : ByteOrder) (charSet : List (List Nat))
    (saltBefore saltAfter : List Nat) (n : Nat) (expectedDigest : List Nat)
    (hlen : expectedDigest.length = 64) (hhex : isHexText expectedDigest)
    (hcs : charSet ≠ []) (hsingle : ∀ c, c ∈ charSet → c.length = 1) (hn : 1 ≤ n)
    (hbuf : charSet.length ^ n * (saltBefore.length + saltAfter.length + n) < 2 ^ 31)
    (horder : order.Perm (List.range (numberOfWordToTest charSet n)))
    (hno : ∀ i, i < charSet.length ^ n →
      hashWords (charsetCandidate charSet saltBefore saltAfter n i)
        ≠ (searchArgs e charSet saltBefore saltAfter n
            (DecodeInput expectedDigest)).digest_expected) :
    (∀ k, matchBuffer (order.take k) priv beyond e charSet saltBefore saltAfter n
        (DecodeInput expectedDigest ++ spare) = some (List.replicate n 0))
    ∧ processWithGpu order priv beyond spare e charSet saltBefore saltAfter n expectedDigest
        = some [] := by
  have hflat := flatten_length_of_single_bytes charSet hsingle
  have hbn : charSet.length ^ n < 2 ^ 31 := pow_lt_of_buffer_bound _ n _ hn hbuf
  have hd := DecodeInput_length_of_isHexText expectedDigest hhex
  have h32 : 32 ≤ (DecodeInput expectedDigest).length := by omega
  have hmem : ∀ i, i ∈ order → i < charSet.length ^ n := fun i hi =>
    List.mem_range.mp (horder.mem_iff.mp hi)
  have hdef := lanes_defined_of_buffer_bound e charSet saltBefore saltAfter n
    (DecodeInput expectedDigest) hcs hflat hn hbuf
  have hno2 : ∀ i, i < charSet.length ^ n →
      hashWords (candidate
          (searchArgs e charSet saltBefore saltAfter n (DecodeInput expectedDigest)) i)
        ≠ (searchArgs e charSet saltBefore saltAfter n
            (DecodeInput expectedDigest)).digest_expected := by
    intro i hi
    rw [candidate_eq_charsetCandidate e charSet saltBefore saltAfter n _ i hcs hsingle hbn]
    exact hno i hi
  have hmb : ∀ o : List Nat, (∀ i, i ∈ o → i < charSet.length ^ n) →
      matchBuffer o priv beyond e charSet saltBefore saltAfter n (DecodeInput expectedDigest)
        = some (List.replicate n 0) := by
    intro o ho
    rw [matchBuffer_of_defined o priv beyond e charSet saltBefore saltAfter n _
        (fun i hi => hdef i (ho i hi)),
      lanes_without_match priv beyond _ (charSet.length ^ n)
        (searchArgs_digest_length _ _ _ _ _ _) o ho (fun i hi => hno2 i (ho i hi)) _
        (by simp [searchArgs, SearchArgs.word_size, PowInt])]
  refine ⟨fun k => ?_, ?_⟩
  · rw [matchBuffer_append _ _ _ _ _ _ _ _ _ spare h32]
    exact hmb _ (fun i hi => hmem i (List.mem_of_mem_take hi))
  · rw [processWithGpu_of_decoded order priv beyond spare e charSet saltBefore saltAfter n
      expectedDigest h32, hmb order hmem, Option.map_some']
    congr 1
    rw [readResult_eq_nil_iff n _ (List.length_replicate _ _)]
    intro b hb
    exact (List.mem_replicate.mp hb).2

/-- Witness of the amended C5: the charset "d", "e", one wildcard, no salts, and the
target the digest of "f", which no candidate has. -/
theorem no_match_returns_empty_witness :
    (∀ k, matchBuffer ([1, 0].take k) (fun _ _ => 0) (List.replicate 24 0) .BigEndian
        [[100], [101]] [] [] 1 (DecodeInput digestOfF ++ []) = some (List.replicate 1 0))
    ∧ processWithGpu [1, 0] (fun _ _ => 0) (List.replicate 24 0) [] .BigEndian
        [[100], [101]] [] [] 1 digestOfF = some [] :=
  no_match_returns_empty [1, 0] (fun _ _ => 0) (List.replicate 24 0) [] .BigEndian
    [[100], [101]] [] [] 1 digestOfF (by decide!) (by decide!) (by decide) (by decide)
    (by decide) (by norm_num) (by decide) (by decide!)

/-- C4, as stated, fails: with the charset of the one character NUL, one wildcard, no
salts and the target the digest of the string NUL, the one enumerated candidate has the
digest of the target and the lane writes its wildcard byte 0 to the match buffer; the
host reads only zero bytes and `processWithGpu` returns the empty string.  With no
wildcard (salt "e", target the digest of "e") the one candidate "e" has the digest of
the target as well, and the result is the empty string, the only string of length 0. -/
theorem empty_result_although_candidate_matches :
    (processWithGpu [0] (fun _ _ => 0) (List.replicate 24 0) [] .BigEndian
        [[0]] [] [] 1 digestOfNul = some []
      ∧ charsetCandidate [[0]] [] [] 1 0 = [0]
      ∧ hashWords (charsetCandidate [[0]] [] [] 1 0)
          = (searchArgs .BigEndian [[0]] [] [] 1 (DecodeInput digestOfNul)).digest_expected
      ∧ EncodeToString ((Hash ⟨.BigEndian⟩ [0] (fun _ _ => 0) [[0]]).getD 0 []) = digestOfNul)
    ∧ (processWithGpu [0] (fun _ _ => 0) (List.replicate 24 0) [] .BigEndian
        [[101], [102]] [101] [] 0 digestOfE = some []
      ∧ charsetCandidate [[101], [102]] [101] [] 0 0 = [101]
      ∧ hashWords (charsetCandidate [[101], [102]] [101] [] 0 0)
          = (searchArgs .BigEndian [[101], [102]] [101] [] 0
              (DecodeInput digestOfE)).digest_expected) := by
  decide!

/-- C4, amended: with at least one wildcard, a non-empty charset of single-byte
characters none of which is NUL, a candidate buffer of fewer than `2^31` bytes
(`charsetSize^wildcardCount * wordSize < 2^31`), and a launch that runs all lanes in any
order and in which the 24 words compared beyond the digest agree, if `processWithGpu`
returns the empty string then no enumerated candidate has the eight target words the
kernel received. -/
theorem empty_result_means_no_match (order : List Nat) (priv : Nat → Nat → Nat)
    (beyond spare : List Nat) (e : ByteOrder) (charSet : List (List Nat))
    (saltBefore saltAfter : List Nat) (n : Nat) (expectedDigest : List Nat)
    (hn : 1 ≤ n) (hcs : charSet ≠ []) (hchars : ∀ c, c ∈ charSet → ∃ x, c = [x] ∧ x ≠ 0)
    (hbuf : charSet.length ^ n * (saltBefore.length + saltAfter.length + n) < 2 ^ 31)
    (horder : order.Perm (List.range (numberOfWordToTest charSet n)))
    (hpad : ∀ i k, 8 ≤ k → k < 32 → priv i k = beyond.getD (k - 8) 0)
    (hres : processWithGpu order priv beyond spare e charSet saltBefore saltAfter n
      expectedDigest = some []) :
    ∀ i, i < charSet.length ^ n →
      hashWords (charsetCandidate charSet saltBefore saltAfter n i)
        ≠ (searchArgs e charSet saltBefore saltAfter n
            (DecodeInput expectedDigest ++ spare)).digest_expected := by
  intro i hi heq
  have hsingle : ∀ c, c ∈ charSet → c.length = 1 := by
    intro c hc
    obtain ⟨x, hx, _⟩ := hchars c hc
    rw [hx]
    rfl
  have hflat := flatten_length_of_single_bytes charSet hsingle
  have hbn : charSet.length ^ n < 2 ^ 31 := pow_lt_of_buffer_bound _ n _ hn hbuf
  have hcsf : charSet.flatten ≠ [] := by
    apply List.length_pos.mp
    rw [hflat]
    exact List.length_pos.mpr hcs
  have hnz : ∀ c, c ∈ charSet.flatten → c ≠ 0 := by
    intro c hc
    rw [List.mem_flatten] at hc
    obtain ⟨l, hl, hcl⟩ := hc
    obtain ⟨x, hx, hx0⟩ := hchars l hl
    rw [hx, List.mem_singleton] at hcl
    rw [hcl]
    exact hx0
  have hmem : ∀ j, j ∈ order → j < charSet.length ^ n := fun j hj =>
    List.mem_range.mp (horder.mem_iff.mp hj)
  have hio : i ∈ order := horder.mem_iff.mpr (List.mem_range.mpr hi)
  rw [processWithGpu_eq] at hres
  by_cases hcap : (DecodeInput expectedDigest).length + spare.length < 32
  · rw [if_pos hcap] at hres
    exact absurd hres (by simp)
  · rw [if_neg hcap, Option.map_eq_some'] at hres
    obtain ⟨mb, hmb, hr⟩ := hres
    have hlen := matchBuffer_length order priv beyond e charSet saltBefore saltAfter n _ mb hmb
    have hmbeq := (matchBuffer_some order priv beyond e charSet saltBefore saltAfter n _ mb
      hmb).2
    have heq2 : hashWords (candidate (searchArgs e charSet saltBefore saltAfter n
          (DecodeInput expectedDigest ++ spare)) i)
        = (searchArgs e charSet saltBefore saltAfter n
            (DecodeInput expectedDigest ++ spare)).digest_expected := by
      rw [candidate_eq_charsetCandidate e charSet saltBefore saltAfter n _ i hcs hsingle hbn]
      exact heq
    have hgood : mb.getD 0 0 ≠ 0 := by
      rw [hmbeq]
      apply lanes_find_match priv beyond _ (charSet.length ^ n)
        (searchArgs_digest_length _ _ _ _ _ _) hpad hn ?_ i heq2 order hmem hio
      · simp [searchArgs, SearchArgs.word_size, PowInt]
      · simp [searchArgs]
      · intro index
        exact wildcard_byte_ne_zero _ index hn rfl hcsf hnz
    rw [readResult_eq_nil_iff n mb hlen] at hr
    apply hgood
    rw [List.getD_eq_getElem _ 0 (by omega)]
    exact hr _ (List.getElem_mem _)

/-- Witness of the amended C4: the charset "d", "e", one wildcard, no salts, and the
target the digest of "f": the result is empty and neither candidate has the digest. -/
theorem empty_result_means_no_match_witness :
    hashWords (charsetCandidate [[100], [101]] [] [] 1 0)
      ≠ (searchArgs .BigEndian [[100], [101]] [] [] 1
          (DecodeInput digestOfF ++ [])).digest_expected
    ∧ hashWords (charsetCandidate [[100], [101]] [] [] 1 1)
      ≠ (searchArgs .BigEndian [[100], [101]] [] [] 1
          (DecodeInput digestOfF ++ [])).digest_expected :=
  have h := empty_result_means_no_match [1, 0] (fun _ _ => 0) (List.replicate 24 0) []
    .BigEndian [[100], [101]] [] [] 1 digestOfF (by decide) (by decide)
    (by
      intro c hc
      simp only [List.mem_cons, List.mem_singleton, List.not_mem_nil, or_false] at hc
      rcases hc with rfl | rfl
      · exact ⟨100, rfl, by decide⟩
      · exact ⟨101, rfl, by decide⟩)
    (by norm_num) (by decide)
    (fun _ _ _ _ => by
      rw [List.getD_eq_getElem?_getD, List.getElem?_replicate]
      split_ifs <;> rfl)
    (by decide!)
  ⟨h 0 (by decide), h 1 (by decide)⟩

/-! ## The target of a search for a digest of the same hasher -/

theorem lor_shiftLeft (a x i : Nat) (hx : x < 2 ^ i) : x ||| (a <<< i) = a * 2 ^ i + x := by
  rw [Nat.lor_comm, Nat.shiftLeft_eq, Nat.mul_comm, ← Nat.mul_add_lt_is_or hx]

theorem pack_bytes (b0 b1 b2 b3 : Nat) (h1 : b1 < 256) (h2 : b2 < 256) (h3 : b3 < 256) :
    b3 ||| (b2 <<< 8) ||| (b1 <<< 16) ||| (b0 <<< 24)
      = b0 * 2 ^ 24 + b1 * 2 ^ 16 + b2 * 2 ^ 8 + b3 := by
  rw [lor_shiftLeft b2 b3 8 (by omega), lor_shiftLeft b1 _ 16 (by omega),
    lor_shiftLeft b0 _ 24 (by omega)]
  omega

/-- Packing the four bytes that `PutUint32` stores gives the word back. -/
theorem Uint32_PutUint32 (e : ByteOrder) (w : Nat) (hw : w < 2 ^ 32) :
    e.Uint32 (e.PutUint32 w) = w := by
  cases e
  · show (w % 256) ||| (((w >>> 8) % 256) <<< 8) ||| (((w >>> 16) % 256) <<< 16)
      ||| (((w >>> 24) % 256) <<< 24) = w
    rw [pack_bytes _ _ _ _ (Nat.mod_lt _ (by omega)) (Nat.mod_lt _ (by omega))
      (Nat.mod_lt _ (by omega))]
    simp only [Nat.shiftRight_eq_div_pow]
    omega
  · show (w % 256) ||| (((w >>> 8) % 256) <<< 8) ||| (((w >>> 16) % 256) <<< 16)
      ||| (((w >>> 24) % 256) <<< 24) = w
    rw [pack_bytes _ _ _ _ (Nat.mod_lt _ (by omega)) (Nat.mod_lt _ (by omega))
      (Nat.mod_lt _ (by omega))]
    simp only [Nat.shiftRight_eq_div_pow]
    omega

theorem PutUint32_length (e : ByteOrder) (w : Nat) : (e.PutUint32 w).length = 4 := by
  cases e <;> rfl

theorem PutUint32_lt (e : ByteOrder) (w : Nat) : ∀ b, b ∈ e.PutUint32 w → b < 256 := by
  intro b hb
  cases e <;>
  · simp only [ByteOrder.PutUint32, List.mem_cons, List.mem_singleton, List.not_mem_nil,
      or_false] at hb
    rcases hb with h | h | h | h <;> rw [h] <;> exact Nat.mod_lt _ (by omega)

theorem total_pos (ulen : Nat) : 1 ≤ total ulen := by
  unfold total
  split_ifs <;> omega

/-- The words `hash` writes are 32-bit words. -/
theorem hash_lt (pk : Nat → Nat) (ulen : Nat) : ∀ w, w ∈ hash pk ulen → w < 2 ^ 32 := by
  intro w hw
  unfold hash at hw
  obtain ⟨t, ht⟩ : ∃ t, total ulen = t + 1 := ⟨total ulen - 1, by have := total_pos ulen; omega⟩
  rw [ht, List.range_succ, List.foldl_append] at hw
  simp only [List.foldl_cons, List.foldl_nil, hashBlock, List.mem_cons, List.mem_singleton,
    List.not_mem_nil, or_false] at hw
  rcases hw with h | h | h | h | h | h | h | h <;> rw [h] <;> exact Nat.mod_lt _ (by norm_num)

theorem chunk_of_flatMap (e : ByteOrder) (ws : List Nat) :
    ∀ k, k < ws.length →
      ((ws.flatMap e.PutUint32).drop (4 * k)).take 4 = e.PutUint32 (ws.getD k 0) := by
  induction ws with
  | nil => intro k hk; simp at hk
  | cons x xs ih =>
    intro k hk
    rw [List.flatMap_cons]
    cases k with
    | zero => exact List.take_left' (PutUint32_length e x)
    | succ k =>
      have e1 : 4 * (k + 1) = (e.PutUint32 x).length + 4 * k := by
        rw [PutUint32_length]
        omega
      rw [e1, List.drop_append]
      simp only [List.length_cons] at hk
      exact ih k (by omega)

/-- The target words `processWithGpu` packs from the serialised digest words are the
digest words, for either byte order. -/
theorem words_of_serialised (e : ByteOrder) (ws : List Nat) (hlen : ws.length = 8)
    (hw : ∀ w, w ∈ ws → w < 2 ^ 32) :
    (List.range 8).map (fun k => e.Uint32 (((ws.flatMap e.PutUint32).drop (4 * k)).take 4))
      = ws := by
  apply list_eq_of_getD _ _ 8 (by simp) hlen
  intro k hk
  rw [List.getD_eq_getElem _ 0 (by simpa using hk)]
  simp only [List.getElem_map, List.getElem_range]
  rw [chunk_of_flatMap e ws k (by omega),
    Uint32_PutUint32 e _ (by
      rw [List.getD_eq_getElem _ 0 (by omega)]
      exact hw _ (List.getElem_mem _))]

theorem flatMap_eight (f : Nat → List Nat) (l : List Nat) (hl : l.length = 8) :
    f (l.getD 0 0) ++ f (l.getD 1 0) ++ f (l.getD 2 0) ++ f (l.getD 3 0) ++ f (l.getD 4 0)
      ++ f (l.getD 5 0) ++ f (l.getD 6 0) ++ f (l.getD 7 0) = l.flatMap f := by
  match l, hl with
  | [a, b, c, d, e, f', g, h], _ =>
    simp [List.flatMap_cons]

/-- The one lane of a launch of `sha256_crypt_kernel` for a single string computes the
words of that string. -/
theorem kernel_single (priv : Nat → Nat → Nat) (s : List Nat) (hs : s.length < 2 ^ 32)
    (k : Nat) (hk : k < 8) :
    (sha256_crypt_kernel priv (sizeInput [s]) (textInput [s]) (List.replicate 32 0) 0).getD k 0
      = (hashWords s).getD k 0 := by
  unfold sha256_crypt_kernel
  simp only
  rw [foldl_set_getD (0 * 8) _ 32 (List.replicate 32 0) k,
    if_pos ⟨by omega, by omega, by simp; omega⟩]
  have e1 : k - 0 * 8 = k := by omega
  rw [e1, if_pos hk]
  have hsz : sizeInput [s] = [0, s.length] := by
    simp only [sizeInput, addresses, u32]
    rw [Nat.mod_eq_of_lt hs, Nat.add_zero, Nat.mod_eq_of_lt hs]
  have htx : textInput [s] = s := by
    simp [textInput]
  rw [hsz, htx]
  have hu : u32 ([0, s.length].getD (0 + 1) 0 + 2 ^ 32 - [0, s.length].getD 0 0) = s.length := by
    show (s.length + 2 ^ 32 - 0) % 2 ^ 32 = s.length
    omega
  rw [hu]
  have hh : hash (fun j => s.getD ([0, s.length].getD 0 0 + j) 0) s.length
      = hash (fun j => s.getD j 0) s.length := by
    apply hash_congr
    intro j _
    show s.getD (0 + j) 0 = s.getD j 0
    rw [Nat.zero_add]
  rw [hh]
  rfl

/-- For a single string the method `Hash` returns the serialisation, in the byte order
of the hasher, of the eight words `hash` computes for it. -/
theorem Hash_single (h : hasherGpuSha256) (priv : Nat → Nat → Nat) (s : List Nat)
    (hs : s.length < 2 ^ 32) :
    Hash h [0] priv [s] = [(hashWords s).flatMap h.endianness.PutUint32] := by
  unfold Hash hashWithGpu
  simp only [List.length_singleton, List.foldl_cons, List.foldl_nil, Nat.mul_one]
  have hr : List.range 1 = [0] := rfl
  rw [hr]
  simp only [List.map_cons, List.map_nil, Nat.zero_mul, Nat.zero_add]
  have h0 := kernel_single priv s hs 0 (by omega)
  have h1 := kernel_single priv s hs 1 (by omega)
  have h2 := kernel_single priv s hs 2 (by omega)
  have h3 := kernel_single priv s hs 3 (by omega)
  have h4 := kernel_single priv s hs 4 (by omega)
  have h5 := kernel_single priv s hs 5 (by omega)
  have h6 := kernel_single priv s hs 6 (by omega)
  have h7 := kernel_single priv s hs 7 (by omega)
  rw [h0, h1, h2, h3, h4, h5, h6, h7,
    flatMap_eight h.endianness.PutUint32 (hashWords s) (hash_length _ _)]

/-- The target words of a search for the hex text of a digest that `Hash` returned:
they are the words `hash` computes for the hashed string, whatever the byte order. -/
theorem target_of_Hash (e : ByteOrder) (priv : Nat → Nat → Nat) (charSet : List (List Nat))
    (saltBefore saltAfter : List Nat) (n : Nat) (s : List Nat) (hs : s.length < 2 ^ 32) :
    (searchArgs e charSet saltBefore saltAfter n
        (DecodeInput (EncodeToString ((Hash ⟨e⟩ [0] priv [s]).getD 0 [])))).digest_expected
      = hashWords s
    ∧ (DecodeInput (EncodeToString ((Hash ⟨e⟩ [0] priv [s]).getD 0 []))).length = 32 := by
  rw [Hash_single ⟨e⟩ priv s hs]
  have hb : ∀ b, b ∈ (hashWords s).flatMap e.PutUint32 → b < 256 := by
    intro b hb
    rw [List.mem_flatMap] at hb
    obtain ⟨w, _, hbw⟩ := hb
    exact PutUint32_lt e w b hbw
  have hdec : DecodeInput (EncodeToString ((hashWords s).flatMap e.PutUint32))
      = (hashWords s).flatMap e.PutUint32 := by
    unfold DecodeInput
    rw [DecodeString_EncodeToString _ hb]
  refine ⟨?_, ?_⟩
  · show (List.range 8).map (fun k => e.Uint32
        (((DecodeInput (EncodeToString ((hashWords s).flatMap e.PutUint32))).drop (4 * k)).take 4))
      = hashWords s
    rw [hdec]
    exact words_of_serialised e (hashWords s) (hash_length _ _) (hash_lt _ _)
  · show (DecodeInput (EncodeToString ((hashWords s).flatMap e.PutUint32))).length = 32
    rw [hdec]
    have h8 : (hashWords s).length = 8 := hash_length _ _
    match hashWords s, h8 with
    | [a, b, c, d, e', f, g, h], _ =>
      simp [List.flatMap_cons, PutUint32_length]

/-- The search finds the match in a run where the 24 words compared beyond the digest
agree.  For a charset of single non-zero bytes, `wildcardCount ≥ 1`, a candidate buffer
of fewer than `2^31` bytes (`charsetSize^wildcardCount * wordSize < 2^31`), a lane index
`i0` below `charsetSize^wildcardCount`, all lanes run in any order, and the target the
hex text of the digest `Hash` returns for the candidate `saltBefore ++ w_i0 ++ saltAfter`:
if no other candidate has the digest words of that candidate, `ProcessWithWildcard`
returns `w_i0`. -/
theorem search_finds_digest_of_Hash (e : ByteOrder) (order : List Nat)
    (priv priv' : Nat → Nat → Nat) (beyond spare : List Nat) (charSet : List (List Nat))
    (saltBefore saltAfter : List Nat) (n i0 : Nat)
    (hne : charSet ≠ []) (hchars : ∀ c, c ∈ charSet → ∃ x, c = [x] ∧ x ≠ 0)
    (hn : 1 ≤ n) (hi0 : i0 < charSet.length ^ n)
    (hbuf : charSet.length ^ n * (saltBefore.length + saltAfter.length + n) < 2 ^ 31)
    (horder : order.Perm (List.range (PowInt charSet.length n)))
    (hpad : ∀ i k, 8 ≤ k → k < 32 → priv i k = beyond.getD (k - 8) 0)
    (huniq : ∀ j, j < charSet.length ^ n → j ≠ i0 →
      hashWords (saltBefore ++ wildcardOf charSet n j ++ saltAfter)
        ≠ hashWords (saltBefore ++ wildcardOf charSet n i0 ++ saltAfter)) :
    ProcessWithWildcard ⟨e⟩ order priv beyond spare charSet saltBefore saltAfter n
        (EncodeToString ((Hash ⟨e⟩ [0] priv'
          [saltBefore ++ wildcardOf charSet n i0 ++ saltAfter]).getD 0 []))
      = some (wildcardOf charSet n i0) := by
  have hflat : charSet.flatten.length = charSet.length :=
    flatten_length_of_single_bytes charSet (fun c hc => by
      obtain ⟨x, hx, _⟩ := hchars c hc
      rw [hx]
      rfl)
  have hbn : charSet.length ^ n < 2 ^ 31 := pow_lt_of_buffer_bound _ n _ hn hbuf
  have hb : 1 ≤ charSet.flatten.length := by
    rw [hflat]
    exact List.length_pos.mpr hne
  have hbn2 : charSet.flatten.length ^ n < 2 ^ 31 := by rw [hflat]; exact hbn
  have hcs : charSet.flatten ≠ [] := List.length_pos.mp hb
  have hnz : ∀ c, c ∈ charSet.flatten → c ≠ 0 := by
    intro c hc
    rw [List.mem_flatten] at hc
    obtain ⟨l, hl, hcl⟩ := hc
    obtain ⟨x, hx, hx0⟩ := hchars l hl
    rw [hx, List.mem_singleton] at hcl
    rw [hcl]
    exact hx0
  have hsize : saltBefore.length + saltAfter.length + n < 2 ^ 32 := by
    have hpow : 1 ≤ charSet.length ^ n := Nat.pow_pos (List.length_pos.mpr hne)
    have h1 : 1 * (saltBefore.length + saltAfter.length + n)
        ≤ charSet.length ^ n * (saltBefore.length + saltAfter.length + n) :=
      Nat.mul_le_mul_right _ hpow
    have h2 : (2 : Nat) ^ 31 < 2 ^ 32 := by norm_num
    omega
  have hlen : (saltBefore ++ wildcardOf charSet n i0 ++ saltAfter).length < 2 ^ 32 := by
    simp only [List.length_append, wildcardOf, List.length_map, List.length_range]
    omega
  obtain ⟨htarget, hde⟩ := target_of_Hash e priv' charSet saltBefore saltAfter n
    (saltBefore ++ wildcardOf charSet n i0 ++ saltAfter) hlen
  have hres := search_finds_unique_match order priv beyond spare e charSet saltBefore
    saltAfter n
    (EncodeToString ((Hash ⟨e⟩ [0] priv'
      [saltBefore ++ wildcardOf charSet n i0 ++ saltAfter]).getD 0 []))
    (by omega) hn hcs hnz horder
    (fun i hi => lanes_defined_of_buffer_bound e charSet saltBefore saltAfter n _ hne hflat
      hn hbuf i hi)
    hpad i0 hi0
    (by rw [htarget, candidate_eq_wildcardOf e charSet saltBefore saltAfter n _ i0 hb hbn2])
    (by
      intro j hj hji
      rw [htarget, candidate_eq_wildcardOf e charSet saltBefore saltAfter n _ j hb hbn2]
      exact huniq j hj hji)
  unfold ProcessWithWildcard
  rw [hres]
  congr 1
  unfold wildcardOf
  apply List.map_congr_left
  intro p hp
  rw [List.mem_range] at hp
  rw [currentDigit_searchArgs e charSet saltBefore saltAfter n _ i0 p hp hb hbn2]

/-- The result of `Hash` has one element for every input string and every element has
32 bytes, whatever the lane order and the uninitialised words. -/
theorem Hash_shape (h : hasherGpuSha256) (order : List Nat) (priv : Nat → Nat → Nat)
    (datas : List (List Nat)) :
    (Hash h order priv datas).length = datas.length
    ∧ ∀ d, d ∈ Hash h order priv datas → d.length = 32 := by
  unfold Hash hashWithGpu
  refine ⟨by simp, ?_⟩
  intro d hd
  simp only [List.mem_map, List.mem_range] at hd
  obtain ⟨i, _, rfl⟩ := hd
  simp only [List.length_append, PutUint32_length]

/-! ## Evaluations of the code at concrete inputs -/

/-- C1: the search of the test (charset "e", "f", no salts, one wildcard, target the
digest of "e") returns the empty string when the word of device memory after the
8-word target buffer differs from the uninitialised word `current_digest[8]`, because
`comp_arrays` is called with size 32; it returns "e" when these 24 words agree.  The
target decodes to 32 bytes, so that what follows them in their backing array (`spare`)
plays no part. -/
theorem search_misses_match_on_unequal_padding (spare : List Nat) :
    ProcessWithWildcard ⟨.BigEndian⟩ [0, 1] (fun _ _ => 0) (List.replicate 24 1) spare
        [[101], [102]] [] [] 1 digestOfE = some []
    ∧ ProcessWithWildcard ⟨.BigEndian⟩ [0, 1] (fun _ _ => 0) (List.replicate 24 0) spare
        [[101], [102]] [] [] 1 digestOfE = some [101] := by
  have h32 : 32 ≤ (DecodeInput digestOfE).length := by decide!
  have e1 := processWithGpu_of_decoded [0, 1] (fun _ _ => 0) (List.replicate 24 1) spare
    .BigEndian [[101], [102]] [] [] 1 digestOfE h32
  have e0 := processWithGpu_of_decoded [0, 1] (fun _ _ => 0) (List.replicate 24 0) spare
    .BigEndian [[101], [102]] [] [] 1 digestOfE h32
  have v1 : (matchBuffer [0, 1] (fun _ _ => 0) (List.replicate 24 1) .BigEndian
      [[101], [102]] [] [] 1 (DecodeInput digestOfE)).map (readResult 1) = some [] := by
    decide!
  have v0 : (matchBuffer [0, 1] (fun _ _ => 0) (List.replicate 24 0) .BigEndian
      [[101], [102]] [] [] 1 (DecodeInput digestOfE)).map (readResult 1) = some [101] := by
    decide!
  exact ⟨e1.trans v1, e0.trans v0⟩

/-- C2: on the 120-byte message "aaa...a" the core runs two blocks where the padded
message has three, and the words it writes are not the SHA-256 digest; on "test" and
on "1234567890" they are. -/
theorem hash_differs_from_sha256_at_length_120 :
    total 120 = 2
    ∧ (Sha256Spec.pad (List.replicate 120 97)).length / 64 = 3
    ∧ coreDigest (List.replicate 120 97) ≠ Sha256Spec.sha256 (List.replicate 120 97)
    ∧ coreDigest [116, 101, 115, 116] = Sha256Spec.sha256 [116, 101, 115, 116]
    ∧ coreDigest [49, 50, 51, 52, 53, 54, 55, 56, 57, 48]
        = Sha256Spec.sha256 [49, 50, 51, 52, 53, 54, 55, 56, 57, 48] := by
  decide!

/-- C3: for the list "a", "b", when the device runs lane 1 before lane 0, element 1 of
the result of `Hash` is 32 zero bytes (the words 8..15 that lane 0 copies from its
uninitialised array) and not the serialised digest of "b". -/
theorem Hash_second_digest_overwritten :
    (Hash ⟨.BigEndian⟩ [1, 0] (fun _ _ => 0) [[97], [98]]).getD 1 [] = List.replicate 32 0
    ∧ (Hash ⟨.BigEndian⟩ [1, 0] (fun _ _ => 0) [[97], [98]]).getD 1 [] ≠ coreDigest [98]
    ∧ (Hash ⟨.BigEndian⟩ [0, 1] (fun _ _ => 0) [[97], [98]]).getD 1 [] = coreDigest [98] := by
  decide!

/-- C6: for the list "a", "b" the two lane orders 0,1 and 1,0 give different results of
`Hash`. -/
theorem Hash_depends_on_lane_order :
    Hash ⟨.BigEndian⟩ [0, 1] (fun _ _ => 0) [[97], [98]]
      ≠ Hash ⟨.BigEndian⟩ [1, 0] (fun _ _ => 0) [[97], [98]] := by
  decide!

/-! ## The number of blocks -/

/-- C15: the number of blocks `total` of `hash` is `(ulen + 8) / 64 + 1` exactly for the
lengths with `ulen mod 64 < 56` or `ulen < 64`; for the length 120 (below `2^29`) it is
2 where `(120 + 8) / 64 + 1` is 3. -/
theorem total_is_block_count_iff :
    (∀ ulen, total ulen = (ulen + 8) / 64 + 1 ↔ (ulen % 64 < 56 ∨ ulen < 64))
    ∧ total 120 = 2 ∧ (120 + 8) / 64 + 1 = 3 ∧ 120 < 2 ^ 29 := by
  refine ⟨?_, by decide, by decide, by decide⟩
  intro ulen
  unfold total
  split_ifs with h
  · constructor
    · intro h1
      omega
    · intro h1
      omega
  · constructor
    · intro _
      omega
    · intro _
      omega

/-! ## What a lane of the digest kernel writes -/

/-- The words of the output buffer after lane `index` of `sha256_crypt_kernel`: the
eight words of `hash` at `index*8 ..`, the 24 uninitialised words after them, and the
former content everywhere else. -/
theorem sha256_crypt_kernel_getD (priv : Nat → Nat → Nat) (data_info plain_keyMulti : List Nat)
    (digestMulti : List Nat) (index k : Nat) :
    (sha256_crypt_kernel priv data_info plain_keyMulti digestMulti index).getD k 0
      = if index * 8 ≤ k ∧ k < index * 8 + 32 ∧ k < digestMulti.length then
          (if k - index * 8 < 8 then
            (hash (fun j => plain_keyMulti.getD (data_info.getD index 0 + j) 0)
              (u32 (data_info.getD (index + 1) 0 + 2 ^ 32 - data_info.getD index 0))).getD
              (k - index * 8) 0
           else priv index (k - index * 8))
        else digestMulti.getD k 0 := by
  unfold sha256_crypt_kernel
  simp only
  rw [foldl_set_getD (index * 8) _ 32 digestMulti k]

/-- C13: frame of the digest entry point.  For the list "a", "b" (N = 2), running lane 0
on the output buffer that lane 1 has written changes the word at index 8, outside
`[0, 8)`: the lane writes the 32 words `[8*i, 8*i+32)`. -/
theorem lane_writes_outside_its_eight_words :
    (sha256_crypt_kernel (fun _ _ => 0) (sizeInput [[97], [98]]) (textInput [[97], [98]])
        (sha256_crypt_kernel (fun _ _ => 0) (sizeInput [[97], [98]]) (textInput [[97], [98]])
          (List.replicate 64 0) 1) 0).getD 8 0
      ≠ (sha256_crypt_kernel (fun _ _ => 0) (sizeInput [[97], [98]]) (textInput [[97], [98]])
          (List.replicate 64 0) 1).getD 8 0
    ∧ (sha256_crypt_kernel (fun _ _ => 1) (sizeInput [[97], [98]]) (textInput [[97], [98]])
        (List.replicate 64 0) 0).getD 39 0 = 0
    ∧ ∀ k, 8 ≤ k → k < 32 →
        (sha256_crypt_kernel (fun _ _ => 1) (sizeInput [[97], [98]]) (textInput [[97], [98]])
          (List.replicate 64 0) 0).getD k 0 = 1 := by
  decide!

/-! ## The match test -/

/-- The match test of a lane succeeds exactly when the eight digest words equal the
eight target words and the 24 words after them in the private array equal the 24 words
of device memory after the target buffer. -/
theorem match_test_iff (priv : Nat → Nat → Nat) (beyond : List Nat) (a : SearchArgs)
    (index : Nat) (buffer : List Nat) (hd : a.digest_expected.length = 8) :
    comp_arrays (searchDigest priv a index buffer) (expectedWord beyond a) 32 = 1
      ↔ (∀ k, k < 8 →
          (hash (fun j => buffer.getD (index * a.word_size + j) 0) a.word_size).getD k 0
            = a.digest_expected.getD k 0)
        ∧ ∀ k, 8 ≤ k → k < 32 → priv index k = beyond.getD (k - 8) 0 := by
  rw [comp_arrays_eq_one]
  unfold searchDigest expectedWord
  constructor
  · intro h
    refine ⟨?_, ?_⟩
    · intro k hk
      have := h k (by omega)
      rw [if_pos hk, List.getD_append _ _ _ _ (by omega)] at this
      exact this
    · intro k hk8 hk
      have := h k hk
      rw [if_neg (by omega), List.getD_append_right _ _ _ _ (by omega), hd] at this
      exact this
  · rintro ⟨h1, h2⟩ k hk
    by_cases hk8 : k < 8
    · rw [if_pos hk8, List.getD_append _ _ _ _ (by omega)]
      exact h1 k hk8
    · rw [if_neg hk8, List.getD_append_right _ _ _ _ (by omega), hd]
      exact h2 k (by omega) hk

/-- C19: the match test does not compare exactly the digest.  In lane 0 of the search
of the test (target the digest of "e", candidate "e") the eight digest words equal the
eight words of the target buffer, and the test (`comp_arrays` with size 32) fails when
the words of device memory after the target buffer are 1 and the uninitialised words
are 0; it succeeds when both are 0: the indices 8..31 it reads are outside the 8-word
target buffer and outside the words `hash` wrote. -/
theorem match_test_reads_beyond_digest :
    argsOfTestSearch.digest_expected.length = 8
    ∧ (∀ k, k < 8 →
        searchDigest (fun _ _ => 0) argsOfTestSearch 0
            (materialise argsOfTestSearch 0 (List.replicate 2 0)) k
          = argsOfTestSearch.digest_expected.getD k 0)
    ∧ comp_arrays
        (searchDigest (fun _ _ => 0) argsOfTestSearch 0
          (materialise argsOfTestSearch 0 (List.replicate 2 0)))
        (expectedWord (List.replicate 24 1) argsOfTestSearch) 32 = 0
    ∧ comp_arrays
        (searchDigest (fun _ _ => 0) argsOfTestSearch 0
          (materialise argsOfTestSearch 0 (List.replicate 2 0)))
        (expectedWord (List.replicate 24 0) argsOfTestSearch) 32 = 1
    ∧ comp_arrays
        (searchDigest (fun _ _ => 0) argsOfTestSearch 0
          (materialise argsOfTestSearch 0 (List.replicate 2 0)))
        (expectedWord (List.replicate 24 1) argsOfTestSearch) 8 = 1 := by
  decide!

/-! ## The offsets array -/

theorem addresses_length (previous : Nat) (datas : List (List Nat)) :
    (addresses previous datas).length = datas.length := by
  induction datas generalizing previous with
  | nil => rfl
  | cons s rest ih =>
    rw [addresses, List.length_cons, List.length_cons, ih]

theorem addresses_getD (datas : List (List Nat)) :
    ∀ previous i, previous + (datas.map List.length).sum < 2 ^ 32 → i < datas.length →
      (addresses previous datas).getD i 0
        = previous + ((datas.take (i + 1)).map List.length).sum := by
  induction datas with
  | nil => intro _ i _ hi; simp at hi
  | cons s rest ih =>
    intro previous i hsum hi
    simp only [List.map_cons, List.sum_cons] at hsum
    have e1 : u32 (u32 s.length + previous) = previous + s.length := by
      unfold u32
      rw [Nat.mod_eq_of_lt (by omega : s.length < 2 ^ 32), Nat.mod_eq_of_lt (by omega)]
      omega
    rw [addresses, e1]
    cases i with
    | zero => simp
    | succ i =>
      simp only [List.length_cons] at hi
      rw [List.getD_cons_succ, ih (previous + s.length) i (by omega) (by omega)]
      simp only [List.take_succ_cons, List.map_cons, List.sum_cons]
      omega

/-- The entry `i` of `sizeInput` is the number of bytes of the strings before string
`i`. -/
theorem sizeInput_getD (datas : List (List Nat)) (h : (datas.map List.length).sum < 2 ^ 32)
    (i : Nat) (hi : i ≤ datas.length) :
    (sizeInput datas).getD i 0 = ((datas.take i).map List.length).sum := by
  unfold sizeInput
  cases i with
  | zero => simp
  | succ i =>
    rw [List.getD_cons_succ, addresses_getD datas 0 i (by omega) (by omega)]
    omega

theorem flatten_slice (datas : List (List Nat)) :
    ∀ i, i < datas.length →
      (datas.flatten.drop ((datas.take i).map List.length).sum).take (datas.getD i []).length
        = datas.getD i [] := by
  induction datas with
  | nil => intro i hi; simp at hi
  | cons s rest ih =>
    intro i hi
    cases i with
    | zero =>
      simp only [List.take_zero, List.map_nil, List.sum_nil, List.drop_zero,
        List.getD_cons_zero, List.flatten_cons]
      exact List.take_left' rfl
    | succ i =>
      simp only [List.length_cons] at hi
      simp only [List.take_succ_cons, List.map_cons, List.sum_cons, List.getD_cons_succ,
        List.flatten_cons]
      rw [List.drop_append]
      exact ih i (by omega)

theorem flatten_length_eq_sum (datas : List (List Nat)) :
    datas.flatten.length = (datas.map List.length).sum := by
  induction datas with
  | nil => rfl
  | cons s rest ih =>
    rw [List.flatten_cons, List.length_append, ih, List.map_cons, List.sum_cons]

/-- C18: the offsets array.  For every list of `N` strings whose total byte length is
below `2^32`, `sizeInput` has `N + 1` entries, entry 0 is 0, entry `N` is the length of
`textInput`, and for every `i < N` the bytes of `textInput` at
`[sizeInput[i], sizeInput[i+1])` are the bytes of string `i`, so that
`sizeInput[i+1] - sizeInput[i]`, also as the kernel computes it in 32 bits, is the byte
length of string `i`. -/
theorem sizeInput_offsets (datas : List (List Nat))
    (h : (datas.map List.length).sum < 2 ^ 32) :
    (sizeInput datas).length = datas.length + 1
    ∧ (sizeInput datas).getD 0 0 = 0
    ∧ (sizeInput datas).getD datas.length 0 = (textInput datas).length
    ∧ ∀ i, i < datas.length →
        ((textInput datas).drop ((sizeInput datas).getD i 0)).take
            ((sizeInput datas).getD (i + 1) 0 - (sizeInput datas).getD i 0)
          = datas.getD i []
        ∧ (sizeInput datas).getD i 0 ≤ (sizeInput datas).getD (i + 1) 0
        ∧ (sizeInput datas).getD (i + 1) 0 - (sizeInput datas).getD i 0
            = (datas.getD i []).length
        ∧ u32 ((sizeInput datas).getD (i + 1) 0 + 2 ^ 32 - (sizeInput datas).getD i 0)
            = (datas.getD i []).length := by
  refine ⟨?_, rfl, ?_, ?_⟩
  · unfold sizeInput
    rw [List.length_cons, addresses_length]
  · rw [sizeInput_getD datas h datas.length (Nat.le_refl _), List.take_length]
    unfold textInput
    rw [flatten_length_eq_sum]
  · intro i hi
    have e0 := sizeInput_getD datas h i (by omega)
    have e1 := sizeInput_getD datas h (i + 1) (by omega)
    have e2 : ((datas.take (i + 1)).map List.length).sum
        = ((datas.take i).map List.length).sum + (datas.getD i []).length := by
      rw [List.take_succ, List.map_append, List.sum_append]
      congr 1
      rw [List.getD_eq_getElem _ _ hi, List.getElem?_eq_getElem hi]
      simp
    have e3 : ((datas.take (i + 1)).map List.length).sum ≤ (datas.map List.length).sum := by
      have hsplit : datas = datas.take (i + 1) ++ datas.drop (i + 1) :=
        (List.take_append_drop _ _).symm
      have := congrArg (fun l => (l.map List.length).sum) hsplit
      simp only [List.map_append, List.sum_append] at this
      omega
    rw [e0, e1, e2]
    refine ⟨?_, by omega, by omega, ?_⟩
    · rw [Nat.add_sub_cancel_left]
      exact flatten_slice datas i hi
    · unfold u32
      omega

/-- Witness of C18 at the list "test1", "test2". -/
theorem sizeInput_offsets_witness :
    sizeInput [[116, 101, 115, 116, 49], [116, 101, 115, 116, 50]] = [0, 5, 10]
    ∧ (sizeInput [[116, 101, 115, 116, 49], [116, 101, 115, 116, 50]]).getD 2 0
        = (textInput [[116, 101, 115, 116, 49], [116, 101, 115, 116, 50]]).length :=
  ⟨by decide,
   (sizeInput_offsets [[116, 101, 115, 116, 49], [116, 101, 115, 116, 50]] (by decide)).2.2.1⟩

/-! ## The candidate a lane materialises -/

theorem materialise_getD_outside (a : SearchArgs) (index : Nat) (buffer : List Nat) (k : Nat)
    (hk : k < index * a.word_size ∨ (index + 1) * a.word_size ≤ k) :
    (materialise a index buffer).getD k 0 = buffer.getD k 0 := by
  unfold materialise
  rw [foldl_set_getD (index * a.word_size) (candidateByte a index) a.word_size buffer]
  have e : (index + 1) * a.word_size = index * a.word_size + a.word_size := Nat.succ_mul _ _
  rw [if_neg (by omega)]

theorem lane_buffer_eq (priv : Nat → Nat → Nat) (beyond : List Nat) (a : SearchArgs)
    (m : SearchMem) (index : Nat) :
    (runLane priv beyond a m index).buffer = materialise a index m.buffer := by
  unfold runLane
  simp only
  split_ifs <;> rfl

theorem slice_eq_of_getD (l c : List Nat) (off : Nat) (hlen : off + c.length ≤ l.length)
    (h : ∀ j, j < c.length → l.getD (off + j) 0 = c.getD j 0) :
    (l.drop off).take c.length = c := by
  apply list_eq_of_getD _ _ c.length (by simp; omega) rfl
  intro k hk
  rw [List.getD_eq_getElem _ 0 (by simp; omega)]
  simp only [List.getElem_take, List.getElem_drop]
  rw [← List.getD_eq_getElem _ 0 (by omega)]
  exact h k hk

/-- C16, as stated, fails: for the charset of the 62 single-byte characters "0".."9",
"A".."Z", "a".."z", five wildcards and no salts, `62^5 < 2^31` and 900000000 is a lane
of the launch, but the offset `index * word_size = 900000000 * 5` of its slice is not
below `2^31`: the kernel multiplies in 32-bit `int`, the product overflows, and the lane
has no defined result. -/
theorem lane_offset_overflows :
    charSetAlphanumeric ≠ []
    ∧ charSetAlphanumeric.flatten.length = 62
    ∧ charSetAlphanumeric.flatten.length ^ 5 < 2 ^ 31
    ∧ 900000000 < numberOfWordToTest charSetAlphanumeric 5
    ∧ (searchArgs .BigEndian charSetAlphanumeric [] [] 5 (List.replicate 32 0)).word_size = 5
    ∧ 2 ^ 31 ≤ 900000000 * 5
    ∧ sha256_crypt_and_worder (fun _ _ => 0) (List.replicate 24 0)
        (searchArgs .BigEndian charSetAlphanumeric [] [] 5 (List.replicate 32 0))
        ⟨List.replicate (numberOfWordToTest charSetAlphanumeric 5 * 5) 0, List.replicate 5 0⟩
        900000000 = none := by
  have hw : (searchArgs .BigEndian charSetAlphanumeric [] [] 5
      (List.replicate 32 0)).word_size = 5 := rfl
  refine ⟨by decide, by decide, by decide, by decide, hw, by norm_num, ?_⟩
  rw [sha256_crypt_and_worder, if_neg]
  intro h
  have h3 := h.2.2.1
  rw [hw] at h3
  norm_num at h3

/-- C16, amended: candidate materialisation.  For a non-empty charset of byte length `b`,
salts, a wildcard count `n` with `b^n < 2^31` and a lane `i` of the launch (the candidate
buffer has the `numberOfWordToTest * wordSize` bytes the host allocates) with
`wordSize < 2^31` and `i * wordSize < 2^31`, lane `i` of the search kernel is defined and
after it has run the bytes of the candidate buffer at `[i*wordSize, (i+1)*wordSize)` are
`saltBefore ++ w ++ saltAfter` with `w[p] = charset[(i / b^(n-p-1)) mod b]`, the buffer
has its former length and no byte outside that slice is changed. -/
theorem lane_materialises_candidate (priv : Nat → Nat → Nat) (beyond : List Nat)
    (e : ByteOrder) (charSet : List (List Nat)) (saltBefore saltAfter : List Nat)
    (n : Nat) (de : List Nat) (m : SearchMem) (i : Nat)
    (hb : charSet.flatten ≠ []) (hbn : charSet.flatten.length ^ n < 2 ^ 31)
    (hbuf : m.buffer.length
      = numberOfWordToTest charSet n * (saltBefore.length + saltAfter.length + n))
    (hi : i < numberOfWordToTest charSet n)
    (hw : saltBefore.length + saltAfter.length + n < 2 ^ 31)
    (hoff : i * (saltBefore.length + saltAfter.length + n) < 2 ^ 31) :
    ∃ m1, sha256_crypt_and_worder priv beyond
        (searchArgs e charSet saltBefore saltAfter n de) m i = some m1
      ∧ (m1.buffer.drop (i * (saltBefore.length + saltAfter.length + n))).take
          (saltBefore.length + saltAfter.length + n)
        = saltBefore ++ wildcardOf charSet n i ++ saltAfter
      ∧ (wildcardOf charSet n i).length = n
      ∧ (∀ p, p < n → (wildcardOf charSet n i).getD p 0
          = charSet.flatten.getD
              (i / charSet.flatten.length ^ (n - p - 1) % charSet.flatten.length) 0)
      ∧ m1.buffer.length = m.buffer.length
      ∧ ∀ k, (k < i * (saltBefore.length + saltAfter.length + n)
            ∨ (i + 1) * (saltBefore.length + saltAfter.length + n) ≤ k) →
          m1.buffer.getD k 0 = m.buffer.getD k 0 := by
  have hW : (searchArgs e charSet saltBefore saltAfter n de).word_size
      = saltBefore.length + saltAfter.length + n := rfl
  have hpos : 1 ≤ charSet.flatten.length := List.length_pos.mpr hb
  have hi31 : i < 2 ^ 31 := by
    rcases Nat.eq_zero_or_pos (saltBefore.length + saltAfter.length + n) with h0 | h0
    · have hn0 : n = 0 := by omega
      subst hn0
      have h1 : i < 1 := hi
      omega
    · have := Nat.le_mul_of_pos_right i h0
      omega
  have hdef := laneDefined_searchArgs e charSet saltBefore saltAfter n de i hi31 hw hoff
    hpos hbn
  have hlen : (i + 1) * (searchArgs e charSet saltBefore saltAfter n de).word_size
      ≤ m.buffer.length := by
    rw [hbuf, hW]
    exact Nat.mul_le_mul_right _ hi
  have hcand := candidate_eq_wildcardOf e charSet saltBefore saltAfter n de i hpos hbn
  have hclen : (saltBefore ++ wildcardOf charSet n i ++ saltAfter).length
      = saltBefore.length + saltAfter.length + n := by
    simp only [List.length_append, wildcardOf, List.length_map, List.length_range]
    omega
  refine ⟨runLane priv beyond (searchArgs e charSet saltBefore saltAfter n de) m i,
    by rw [sha256_crypt_and_worder, if_pos hdef], ?_⟩
  rw [lane_buffer_eq]
  refine ⟨?_, by simp [wildcardOf], ?_, materialise_length _ _ _, ?_⟩
  · have hs := slice_eq_of_getD
      (materialise (searchArgs e charSet saltBefore saltAfter n de) i m.buffer)
      (saltBefore ++ wildcardOf charSet n i ++ saltAfter)
      (i * (saltBefore.length + saltAfter.length + n))
      (by
        rw [materialise_length, hclen]
        rw [hW, Nat.succ_mul] at hlen
        omega)
      (by
        intro j hj
        rw [hclen] at hj
        have := materialise_getD (searchArgs e charSet saltBefore saltAfter n de) i m.buffer
          hlen j (by rw [hW]; exact hj)
        rw [hW] at this
        rw [this, ← candidate_getD _ _ _ (by rw [hW]; exact hj), hcand])
    rw [hclen] at hs
    exact hs
  · intro p hp
    unfold wildcardOf
    rw [List.getD_eq_getElem _ 0 (by simpa using hp)]
    simp
  · intro k hk
    have := materialise_getD_outside (searchArgs e charSet saltBefore saltAfter n de) i
      m.buffer k (by rw [hW]; exact hk)
    exact this

/-- Witness of the amended C16: lane 5 of the launch for the charset "d", "e", "f", the
salt "t" before, the salt "uv" after and two wildcards materialises "tefuv" at its
slice. -/
theorem lane_materialises_candidate_witness :
    saltBeforeT ++ wildcardOf charSetDEF 2 5 ++ saltAfterUV = [116, 101, 102, 117, 118]
    ∧ ∃ m1, sha256_crypt_and_worder (fun _ _ => 0) [] (searchArgs .BigEndian charSetDEF
          saltBeforeT saltAfterUV 2 []) ⟨List.replicate 45 0, [0, 0]⟩ 5 = some m1
        ∧ (m1.buffer.drop (5 * (saltBeforeT.length + saltAfterUV.length + 2))).take
            (saltBeforeT.length + saltAfterUV.length + 2)
          = saltBeforeT ++ wildcardOf charSetDEF 2 5 ++ saltAfterUV :=
  ⟨by decide,
   Exists.imp (fun _ h => ⟨h.1, h.2.1⟩)
    (lane_materialises_candidate (fun _ _ => 0) [] .BigEndian charSetDEF saltBeforeT
      saltAfterUV 2 [] ⟨List.replicate 45 0, [0, 0]⟩ 5 (by decide) (by decide) (by decide)
      (by decide) (by decide) (by decide))⟩

/-! ## Byte order -/

theorem digestOfWords_eq_flatMap (e : ByteOrder) (w : List Nat) (hlen : w.length = 8) :
    digestOfWords e w 0 = w.flatMap e.PutUint32 := by
  unfold digestOfWords
  simp only [Nat.zero_mul, Nat.zero_add]
  exact flatMap_eight e.PutUint32 w hlen

theorem searchArgs_congr (e e' : ByteOrder) (charSet : List (List Nat))
    (saltBefore saltAfter : List Nat) (n : Nat) (de de' : List Nat)
    (h : (searchArgs e charSet saltBefore saltAfter n de).digest_expected
      = (searchArgs e' charSet saltBefore saltAfter n de').digest_expected) :
    searchArgs e charSet saltBefore saltAfter n de
      = searchArgs e' charSet saltBefore saltAfter n de' := by
  unfold searchArgs at h ⊢
  simp only at h
  rw [h]

/-- Two calls of `processWithGpu` that differ in the byte order, the target text and
what follows the decoded bytes in their backing array return the same when both targets
decode to at least 32 bytes and give the same target words. -/
theorem processWithGpu_congr (order : List Nat) (priv : Nat → Nat → Nat)
    (beyond spare spare' : List Nat)
    (e e' : ByteOrder) (charSet : List (List Nat)) (saltBefore saltAfter : List Nat) (n : Nat)
    (t t' : List Nat) (h32 : 32 ≤ (DecodeInput t).length) (h32' : 32 ≤ (DecodeInput t').length)
    (h : (searchArgs e charSet saltBefore saltAfter n (DecodeInput t)).digest_expected
      = (searchArgs e' charSet saltBefore saltAfter n (DecodeInput t')).digest_expected) :
    processWithGpu order priv beyond spare e charSet saltBefore saltAfter n t
      = processWithGpu order priv beyond spare' e' charSet saltBefore saltAfter n t' := by
  have hargs := searchArgs_congr e e' charSet saltBefore saltAfter n _ _ h
  rw [processWithGpu_of_decoded order priv beyond spare e charSet saltBefore saltAfter n t h32,
    processWithGpu_of_decoded order priv beyond spare' e' charSet saltBefore saltAfter n t'
      h32']
  unfold matchBuffer
  rw [hargs]

/-- C20: byte-order packing is self-consistent.  For either byte order `e` and every
eight 32-bit words `w`, packing with `e` (as `processWithGpu` does for the target) the
32 bytes that `hashWithGpu` assembles from `w` under `e` gives back `w`; hence for every
string `s` (of fewer than `2^32` bytes) the target words the search kernel receives for
the hex text of `Hash([s])[0]` are the words the core computes for `s`, and a search
for that target returns the same result under both byte orders, whatever follows the
decoded target in its backing array. -/
theorem byte_order_self_consistent (e : ByteOrder) :
    (∀ w : List Nat, w.length = 8 → (∀ x, x ∈ w → x < 2 ^ 32) →
      (List.range 8).map (fun k => e.Uint32 (((digestOfWords e w 0).drop (4 * k)).take 4)) = w)
    ∧ (∀ (priv : Nat → Nat → Nat) (charSet : List (List Nat)) (saltBefore saltAfter : List Nat)
        (n : Nat) (s : List Nat), s.length < 2 ^ 32 →
        (searchArgs e charSet saltBefore saltAfter n
          (DecodeInput (EncodeToString ((Hash ⟨e⟩ [0] priv [s]).getD 0 [])))).digest_expected
          = hashWords s)
    ∧ (∀ (order : List Nat) (priv priv' : Nat → Nat → Nat) (beyond spare spare' : List Nat)
        (charSet : List (List Nat)) (saltBefore saltAfter : List Nat) (n : Nat) (s : List Nat),
        s.length < 2 ^ 32 →
        ProcessWithWildcard ⟨e⟩ order priv beyond spare charSet saltBefore saltAfter n
            (EncodeToString ((Hash ⟨e⟩ [0] priv' [s]).getD 0 []))
          = ProcessWithWildcard ⟨.BigEndian⟩ order priv beyond spare' charSet saltBefore
            saltAfter n (EncodeToString ((Hash ⟨.BigEndian⟩ [0] priv' [s]).getD 0 []))) := by
  refine ⟨?_, ?_, ?_⟩
  · intro w hlen hw
    rw [digestOfWords_eq_flatMap e w hlen]
    exact words_of_serialised e w hlen hw
  · intro priv charSet saltBefore saltAfter n s hs
    exact (target_of_Hash e priv charSet saltBefore saltAfter n s hs).1
  · intro order priv priv' beyond spare spare' charSet saltBefore saltAfter n s hs
    obtain ⟨h1, h2⟩ := target_of_Hash e priv' charSet saltBefore saltAfter n s hs
    obtain ⟨h3, h4⟩ := target_of_Hash .BigEndian priv' charSet saltBefore saltAfter n s hs
    exact processWithGpu_congr order priv beyond spare spare' e .BigEndian charSet saltBefore
      saltAfter n _ _ (Nat.le_of_eq h2.symm) (Nat.le_of_eq h4.symm) (h1.trans h3.symm)

/-- Witness of C20 at the little-endian byte order and the words 1, ..., 8. -/
theorem byte_order_self_consistent_witness :
    (List.range 8).map (fun k => ByteOrder.LittleEndian.Uint32
        (((digestOfWords .LittleEndian [1, 2, 3, 4, 5, 6, 7, 8] 0).drop (4 * k)).take 4))
      = [1, 2, 3, 4, 5, 6, 7, 8] :=
  (byte_order_self_consistent .LittleEndian).1 [1, 2, 3, 4, 5, 6, 7, 8] rfl (by
    intro x hx
    simp only [List.mem_cons, List.mem_singleton, List.not_mem_nil, or_false] at hx
    omega)

/-! ## The number of lanes -/

/-- C14, as stated, fails: for the charset of the one two-byte character "é" and one
wildcard the host launches `PowInt(1, 1) = 1` lane, the word `charsetLength` it passes
to the kernel is 2, and `2^1` is 2. -/
theorem lane_count_differs_for_two_byte_character :
    numberOfWordToTest [[195, 169]] 1 = 1
    ∧ (searchArgs .BigEndian [[195, 169]] [] [] 1 []).size_char_set = 2
    ∧ numberOfWordToTest [[195, 169]] 1
        ≠ (searchArgs .BigEndian [[195, 169]] [] [] 1 []).size_char_set ^ 1 := by
  decide

/-- C14, amended: for every search request whose charset strings have one byte each,
the number of lanes `processWithGpu` launches is the word `charsetLength` it passes to
the kernel, raised to `numberOfWildCards`; the candidate buffer it allocates has that
number of lanes times the word size bytes. -/
theorem lane_count_of_single_byte_charset (e : ByteOrder) (charSet : List (List Nat))
    (saltBefore saltAfter : List Nat) (n : Nat) (de : List Nat)
    (h : ∀ c, c ∈ charSet → c.length = 1) :
    numberOfWordToTest charSet n
      = (searchArgs e charSet saltBefore saltAfter n de).size_char_set ^ n
    ∧ PowInt charSet.length n = numberOfWordToTest charSet n := by
  refine ⟨?_, rfl⟩
  show PowInt charSet.length n = charSet.flatten.length ^ n
  rw [flatten_length_of_single_bytes charSet h]
  rfl

/-- Witness of the amended C14 at the charset "d", "e", "f" and two wildcards: 9
lanes. -/
theorem lane_count_of_single_byte_charset_witness :
    numberOfWordToTest charSetDEF 2 = 9
    ∧ numberOfWordToTest charSetDEF 2
        = (searchArgs .BigEndian charSetDEF saltBeforeT saltAfterUV 2 []).size_char_set ^ 2 :=
  ⟨by decide,
   (lane_count_of_single_byte_charset .BigEndian charSetDEF saltBeforeT saltAfterUV 2 []
      (by decide)).1⟩

/-! ## The endianness probe and the registry -/

theorem digestOfWords_zero (e : ByteOrder) (newData : List Nat) :
    digestOfWords e newData 0
      = ((List.range 8).map (fun k => newData.getD k 0)).flatMap e.PutUint32 := by
  have hr : List.range 8 = [0, 1, 2, 3, 4, 5, 6, 7] := rfl
  rw [hr]
  unfold digestOfWords
  simp only [Nat.zero_mul, Nat.zero_add, List.map_cons, List.map_nil, List.flatMap_cons,
    List.flatMap_nil, List.append_nil, List.append_assoc]

theorem flatMap_PutUint32_lt (e : ByteOrder) (ws : List Nat) :
    ∀ b, b ∈ ws.flatMap e.PutUint32 → b < 256 := by
  intro b hb
  rw [List.mem_flatMap] at hb
  obtain ⟨w, _, hbw⟩ := hb
  exact PutUint32_lt e w b hbw

theorem EncodeToString_injective (d d' : List Nat) (hd : ∀ b, b ∈ d → b < 256)
    (hd' : ∀ b, b ∈ d' → b < 256) (h : EncodeToString d = EncodeToString d') : d = d' := by
  have h1 := DecodeString_EncodeToString d hd
  have h2 := DecodeString_EncodeToString d' hd'
  rw [h, h2] at h1
  exact (congrArg Prod.fst h1).symm

theorem serialise_injective (e : ByteOrder) (ws ws' : List Nat) (hl : ws.length = 8)
    (hl' : ws'.length = 8) (hw : ∀ w, w ∈ ws → w < 2 ^ 32) (hw' : ∀ w, w ∈ ws' → w < 2 ^ 32)
    (h : ws.flatMap e.PutUint32 = ws'.flatMap e.PutUint32) : ws = ws' := by
  have h1 := words_of_serialised e ws hl hw
  have h2 := words_of_serialised e ws' hl' hw'
  rw [h, h2] at h1
  exact h1.symm

theorem probeConstant_eq : probeConstant = EncodeToString (coreDigest probeLiteral) := by
  decide!

/-- C17: the endianness probe constant.  The constant hard-coded in
`NewHasherGpuSha256` has 64 characters, all hex digits, and is the hex text of the
big-endian serialisation of the eight words the compression core computes for the
literal the probe hashes, "test"; hence, for the eight 32-bit words the host reads back
from the device, the probe selects big-endian exactly when they are the words the core
computes, and little-endian otherwise; a device that returns the computed words gets
big-endian. -/
theorem probe_constant_is_digest_of_literal :
    probeConstant.length = 64
    ∧ isHexText probeConstant
    ∧ probeConstant = EncodeToString (coreDigest probeLiteral)
    ∧ (∀ newData : List Nat, (∀ k, k < 8 → newData.getD k 0 < 2 ^ 32) →
        (probeEndianness (digestOfWords .BigEndian newData 0) = .BigEndian
          ↔ ∀ k, k < 8 → newData.getD k 0 = (hashWords probeLiteral).getD k 0)
        ∧ (probeEndianness (digestOfWords .BigEndian newData 0) = .LittleEndian
          ↔ ¬ ∀ k, k < 8 → newData.getD k 0 = (hashWords probeLiteral).getD k 0))
    ∧ ∀ (device : Device) (rest : List Device),
        NewHasherGpuSha256 (.ok (device :: rest)) = some ⟨.BigEndian⟩ := by
  have hconst := probeConstant_eq
  have key : ∀ newData : List Nat, (∀ k, k < 8 → newData.getD k 0 < 2 ^ 32) →
      (EncodeToString (digestOfWords .BigEndian newData 0) = probeConstant
        ↔ ∀ k, k < 8 → newData.getD k 0 = (hashWords probeLiteral).getD k 0) := by
    intro newData hlt
    rw [hconst, digestOfWords_zero]
    unfold coreDigest
    have hl : ((List.range 8).map (fun k => newData.getD k 0)).length = 8 := by simp
    have hw : ∀ w, w ∈ (List.range 8).map (fun k => newData.getD k 0) → w < 2 ^ 32 := by
      intro w hw
      rw [List.mem_map] at hw
      obtain ⟨k, hk, rfl⟩ := hw
      exact hlt k (List.mem_range.mp hk)
    constructor
    · intro h
      have h1 := EncodeToString_injective _ _ (flatMap_PutUint32_lt _ _)
        (flatMap_PutUint32_lt _ _) h
      have h2 := serialise_injective .BigEndian _ _ hl (hash_length _ _) hw (hash_lt _ _) h1
      intro k hk
      have h3 := congrArg (fun l => l.getD k 0) h2
      simp only at h3
      rw [List.getD_eq_getElem _ 0 (by rw [hl]; exact hk)] at h3
      simp only [List.getElem_map, List.getElem_range] at h3
      exact h3
    · intro h
      have h2 : (List.range 8).map (fun k => newData.getD k 0) = hashWords probeLiteral := by
        apply list_eq_of_getD _ _ 8 hl (hash_length _ _)
        intro k hk
        rw [List.getD_eq_getElem _ 0 (by rw [hl]; exact hk)]
        simp only [List.getElem_map, List.getElem_range]
        exact h k hk
      rw [h2]
  refine ⟨rfl, by decide, hconst, ?_, ?_⟩
  · intro newData hlt
    have hk := key newData hlt
    unfold probeEndianness
    by_cases hc : EncodeToString (digestOfWords .BigEndian newData 0) = probeConstant
    · rw [if_pos hc]
      exact ⟨⟨fun _ => hk.mp hc, fun _ => rfl⟩,
        ⟨fun h => (by cases h), fun h => absurd (hk.mp hc) h⟩⟩
    · rw [if_neg hc]
      exact ⟨⟨fun h => (by cases h), fun h => absurd (hk.mpr h) hc⟩,
        ⟨fun _ h => hc (hk.mpr h), fun _ => rfl⟩⟩
  · intro device rest
    have hs := Hash_single ⟨.BigEndian⟩ device.priv probeLiteral (by decide)
    unfold Hash at hs
    unfold NewHasherGpuSha256
    simp only
    rw [hs]
    have hp : probeEndianness (coreDigest probeLiteral) = .BigEndian := by
      unfold probeEndianness
      rw [if_pos hconst.symm]
    exact congrArg (fun e => some (hasherGpuSha256.mk e)) hp

/-- C11, as stated, fails: when the device discovery returns an error, and when it
returns an empty list, no GPU is found and the map `BuildGpuHasherMap` returns has the
entry "sha256"; its factory returns `nil`. -/
theorem registry_has_entry_without_device :
    noGpuFound (.ok [])
    ∧ ((BuildGpuHasherMap (.ok [])).1.lookup "sha256").isSome = true
    ∧ ((BuildGpuHasherMap (.ok [])).1.lookup "sha256").map (fun f => (f ()).isNone)
        = some true
    ∧ noGpuFound (.error "no platform")
    ∧ ((BuildGpuHasherMap (.error "no platform")).1.lookup "sha256").isSome = true
    ∧ ((BuildGpuHasherMap (.error "no platform")).1.lookup "sha256").map
        (fun f => (f ()).isNone) = some true := by
  refine ⟨trivial, ?_, ?_, trivial, ?_, ?_⟩ <;>
  simp [BuildGpuHasherMap, List.lookup, NewHasherGpuSha256]

/-- C11, amended: for every device-discovery outcome the map `BuildGpuHasherMap` returns
has the entry "sha256" and its error is `nil`; the factory of the entry returns `nil`
exactly when no GPU is found (discovery error or empty device list), and a usable hasher
otherwise. -/
theorem registry_entry_yields_nil_iff_no_device (discovery : Except String (List Device)) :
    ∃ f, (BuildGpuHasherMap discovery).1.lookup "sha256" = some f
      ∧ (BuildGpuHasherMap discovery).2 = none
      ∧ (f () = none ↔ noGpuFound discovery) := by
  refine ⟨fun _ => NewHasherGpuSha256 discovery, ?_, rfl, ?_⟩
  · simp [BuildGpuHasherMap, List.lookup]
  · unfold NewHasherGpuSha256 noGpuFound
    match discovery with
    | .ok (device :: rest) => simp
    | .ok [] => simp
    | .error _ => simp

/-! ## The buffers of a call -/

theorem filter_not_contains_cons (b : Nat) (d live : List Nat) (hb : b ∉ live) :
    live.filter (fun x => !(b :: d).contains x) = live.filter (fun x => !d.contains x) := by
  apply List.filter_congr
  intro x hx
  have hne : x ≠ b := fun h => hb (h ▸ hx)
  simp [List.contains_cons, hne]

/-- The builds of a call in which no copy fails leave, once the deferred releases have
run, the buffers that were live before and whose release was not deferred before. -/
theorem buildBuffers_released (f : Failure) (remaining : Nat) :
    ∀ (k : Nat) (s : DeviceBuffers) (deferred : List Nat),
      (∀ b, b ∈ s.live → b < s.next) →
      (∀ j, k ≤ j → j < k + remaining → f ≠ .copy j) →
      (runDeferred (buildBuffers f k remaining s deferred).2.1
          (buildBuffers f k remaining s deferred).1).live
        = s.live.filter (fun x => !deferred.contains x) := by
  induction remaining with
  | zero =>
    intro k s deferred _ _
    rfl
  | succ remaining ih =>
    intro k s deferred hfresh hcopy
    unfold buildBuffers
    by_cases ha : f = .alloc k
    · rw [if_pos ha]
      rfl
    · rw [if_neg ha, if_neg (hcopy k (Nat.le_refl _) (by omega))]
      rw [ih (k + 1) ⟨s.next :: s.live, s.next + 1⟩ (s.next :: deferred)
        (by
          intro b hb
          simp only [List.mem_cons] at hb
          rcases hb with h | h
          · simp only [h]; omega
          · have := hfresh b h
            simp only
            omega)
        (fun j hj1 hj2 => hcopy j (by omega) (by omega))]
      have hn : s.next ∉ s.live := fun h => Nat.lt_irrefl _ (hfresh _ h)
      simp only
      rw [List.filter_cons]
      simp only [List.contains_cons, beq_self_eq_true, Bool.true_or, Bool.not_true,
        Bool.false_eq_true, if_false]
      exact filter_not_contains_cons s.next deferred s.live hn

/-- A call in which no copy fails leaves the buffers that were live before it: they are
released on the return and on the panic of a failed allocation, launch or read-back. -/
theorem gpuCall_releases (n : Nat) (f : Failure) (s : DeviceBuffers)
    (hfresh : ∀ b, b ∈ s.live → b < s.next) (hcopy : ∀ j, j < n → f ≠ .copy j) :
    (gpuCall n f s).1.live = s.live := by
  have h := buildBuffers_released f n 0 s [] hfresh
    (fun j _ hj => hcopy j (by omega))
  have h0 : s.live.filter (fun x => !([] : List Nat).contains x) = s.live := by
    simp
  rw [h0] at h
  unfold gpuCall
  rcases hb : buildBuffers f 0 n s [] with ⟨s1, deferred, ex⟩
  rw [hb] at h
  simp only at h
  cases ex with
  | panicked => exact h
  | returned =>
    simp only
    split_ifs <;> exact h

/-- C12: buffers are not released on every exit path.  In a call of `hashWithGpu` on a
device without live buffers, when the host-to-device copy into the first buffer
(`infos`) fails the call panics and that buffer stays allocated; the same for the copy
into the last buffer (`bCharSetSize`) of `processWithGpu`, where the nine buffers built
before it are released.  When an allocation, the launch or the read-back fails, and
when nothing fails, no buffer stays allocated. -/
theorem buffer_leaks_when_copy_fails :
    hashWithGpuBuffers (.copy 0) ⟨[], 0⟩ = (⟨[0], 1⟩, .panicked)
    ∧ processWithGpuBuffers (.copy 9) ⟨[], 0⟩ = (⟨[9], 10⟩, .panicked)
    ∧ (hashWithGpuBuffers (.alloc 2) ⟨[], 0⟩).1.live = []
    ∧ (hashWithGpuBuffers .run ⟨[], 0⟩).1.live = []
    ∧ (hashWithGpuBuffers .data ⟨[], 0⟩).1.live = []
    ∧ hashWithGpuBuffers .noFailure ⟨[], 0⟩ = (⟨[], 3⟩, .returned)
    ∧ processWithGpuBuffers .noFailure ⟨[], 0⟩ = (⟨[], 10⟩, .returned) := by
  decide

end BruteForce
